import Mathlib

/-!
Verification of the qbhub-client answer-judging engine and reader state
machine against its specification.

Strings are modelled as `List Char`.  Machine rationals produced by the
Dice-coefficient similarity are modelled as `ℚ`; for ratings of the form
`2*i/(a+b-2)` with small integer numerator and denominator, comparison with
the threshold `0.6` in IEEE doubles agrees with the exact rational
comparison against `3/5`, so the rational model is faithful.

Functions from repository files that are not part of the provided sources
(utils/regex.ts, utils/array.ts, parts of utils/string.ts, types/bonus.ts)
and calls into external libraries (compromise, number-to-words,
string-similarity) are modelled from the specification; each such
definition carries a doc comment saying so.
-/

set_option maxHeartbeats 1000000

/-! ### Character classes (by code point, mirroring the JS regex classes) -/

/-- Whitespace characters, the JS regex class `\s` restricted to the
common code points (space, tab, LF, CR). -/
def isWsC (c : Char) : Bool :=
  c.toNat = 32 || c.toNat = 9 || c.toNat = 10 || c.toNat = 13

/-- ASCII decimal digit, the JS regex class `\d`. -/
def isDigitC (c : Char) : Bool :=
  48 ≤ c.toNat && c.toNat ≤ 57

/-- ASCII lowercase letter. -/
def isLowerC (c : Char) : Bool :=
  97 ≤ c.toNat && c.toNat ≤ 122

/-- ASCII uppercase letter. -/
def isUpperC (c : Char) : Bool :=
  65 ≤ c.toNat && c.toNat ≤ 90

/-- ASCII letter or digit. -/
def isAlphaNumC (c : Char) : Bool :=
  isLowerC c || isUpperC c || isDigitC c

/-- ASCII lowercase conversion, the effect of JS `toLowerCase` on the
ASCII range (the only range the answer pipeline produces). -/
def toLowerC (c : Char) : Char :=
  if isUpperC c then Char.ofNat (c.toNat + 32) else c

/-! ### List-of-characters utilities -/

/-- Character list of a string literal. -/
def strL (s : String) : List Char :=
  s.data

/-- Test that the first list is a prefix of the second. -/
def startsL : List Char → List Char → Bool
  | [], _ => true
  | _ :: _, [] => false
  | a :: pre, b :: s => a = b && startsL pre s

/-- Test that `needle` occurs as a contiguous substring of the second list,
the JS `String.prototype.includes`. -/
def hasSubL (needle : List Char) : List Char → Bool
  | [] => startsL needle []
  | s@(_ :: t) => startsL needle s || hasSubL needle t

/-- Split on the single space character, keeping empty fragments, the JS
`String.prototype.split(' ')`. -/
def splitSp : List Char → List (List Char)
  | [] => [[]]
  | c :: rest =>
    if c = ' ' then [] :: splitSp rest
    else
      match splitSp rest with
      | [] => [[c]]
      | w :: ws => (c :: w) :: ws

/-- Join with single spaces, the JS `Array.prototype.join(' ')`. -/
def joinSp : List (List Char) → List Char
  | [] => []
  | [w] => w
  | w :: ws => w ++ ' ' :: joinSp ws

/-- Words of a string: maximal runs of non-whitespace characters
(structurally recursive so that the kernel can evaluate it).  A
non-whitespace character starts a new word when the rest of the string
starts with whitespace or is empty; otherwise it extends the word the rest
begins with (the empty-match arm is unreachable in that case). -/
def wordsOf : List Char → List (List Char)
  | [] => []
  | c :: rest =>
    if isWsC c then wordsOf rest
    else
      if isWsC (rest.headD ' ') then [c] :: wordsOf rest
      else
        match wordsOf rest with
        | [] => [[c]]
        | w :: ws => (c :: w) :: ws

/-- Deduplicate keeping the first occurrence of each element. -/
def getUniqueAux (seen : List (List Char)) : List (List Char) → List (List Char)
  | [] => []
  | x :: xs => if x ∈ seen then getUniqueAux seen xs else x :: getUniqueAux (x :: seen) xs

/-- Modelled from the spec: `getUnique` of the missing utils/array.ts,
"de-duplicate preserving order". -/
def getUnique (l : List (List Char)) : List (List Char) :=
  getUniqueAux [] l

/-- Modelled from the spec: `combine` of the missing utils/array.ts, which
concatenates the two candidate lists. -/
def combine (a b : List (List Char)) : List (List Char) :=
  a ++ b

/-- Modelled from the spec: `emptyStringFilter` of the missing
utils/array.ts, "drop empty results". -/
def emptyStringFilter (s : List Char) : Bool :=
  s ≠ []

/-! ### Scoring (src/utils/reader.tsx, types/tossupReader.ts) -/

/-- TossupScore.neg from types/tossupReader.ts. -/
def TossupScore.neg : Int := -5

/-- TossupScore.ten from types/tossupReader.ts. -/
def TossupScore.ten : Int := 10

/-- TossupScore.power from types/tossupReader.ts. -/
def TossupScore.power : Int := 15

/-- Modelled from the spec: `TossupScore.incorrect` is referenced by
`getTossupScore` but its enum member is missing from the sources; the spec
fixes its value: "incorrect & the buzz occurred at the final word of the
question → zero". -/
def TossupScore.incorrect : Int := 0

/-- Embedding of `getTossupScore` (src/utils/reader.tsx). -/
def getTossupScore (isCorrect isInPower didBuzzAtEnd : Bool) : Int :=
  if isCorrect then
    if isInPower then TossupScore.power else TossupScore.ten
  else
    if didBuzzAtEnd then TossupScore.incorrect else TossupScore.neg

/-- Modelled from the spec: the bonus-part result record of the missing
types/bonus.ts; only its `isCorrect` flag is consumed by `getBonusScore`. -/
structure BonusPartResult where
  isCorrect : Bool
deriving DecidableEq, Repr

/-- Modelled from the spec: `BonusScore` values of the missing
types/bonus.ts, "one of four fixed point totals \x7b0, 10, 20, 30\x7d". -/
def BonusScore.zero : Int := 0

/-- Modelled from the spec: see `BonusScore.zero`. -/
def BonusScore.ten : Int := 10

/-- Modelled from the spec: see `BonusScore.zero`. -/
def BonusScore.twenty : Int := 20

/-- Modelled from the spec: see `BonusScore.zero`. -/
def BonusScore.thirty : Int := 30

/-- The fold computing the number of correct parts, inlined in
`getBonusScore` in the source. -/
def countCorrect (results : List BonusPartResult) : Int :=
  results.foldl (fun acc res => acc + (if res.isCorrect then 1 else 0)) 0

/-- Embedding of `getBonusScore` (src/utils/reader.tsx). -/
def getBonusScore (results : List BonusPartResult) : Int :=
  let correctCount := countCorrect results
  if correctCount = 3 then BonusScore.thirty
  else if correctCount = 2 then BonusScore.twenty
  else if correctCount = 1 then BonusScore.ten
  else BonusScore.zero

/-! ### Reader state machine (src/unnamed/part_000, tossupReaderSlice) -/

/-- Embedding of `ReaderStatus` of the tossup reader slice. -/
inductive ReaderStatus where
  | idle
  | fetching
  | reading
  | answering
  | prompting
  | judged
  | empty
deriving DecidableEq, Repr

/-- Embedding of the `Tossup` record (types/tossupReader.ts); the category,
subcategory and difficulty enums are modelled as numbers. -/
structure Tossup where
  text : List Char
  answer : List Char
  formattedText : List Char
  formattedAnswer : List Char
  category : Nat
  subcategory : Nat
  difficulty : Nat
  tournament : List Char
deriving DecidableEq, Repr

/-- Embedding of `TossupReaderWord` (types/tossupReader.ts). -/
structure TossupReaderWord where
  original : List Char
  shuffled : List Char
  isInPower : Bool
deriving DecidableEq, Repr

/-- Embedding of `TossupBuzz` (types/tossupReader.ts). -/
structure TossupBuzz where
  isPower : Bool
  readText : List Char
  index : Nat
  textWithBuzz : List TossupReaderWord
deriving DecidableEq, Repr

/-- Embedding of `TossupResult` (types/tossupReader.ts); the score field
holds the numeric TossupScore value. -/
structure TossupResult where
  tossup : Tossup
  isCorrect : Bool
  submittedAnswer : List Char
  score : Int
  buzz : TossupBuzz
deriving DecidableEq, Repr

/-- Embedding of `TossupReaderState`; the `\x7b\x7d as Tossup` /
`\x7b\x7d as TossupResult` placeholders of the source become `none`. -/
structure TossupReaderState where
  status : ReaderStatus
  tossups : List Tossup
  results : List TossupResult
  currentTossup : Option Tossup
  currentResult : Option TossupResult
  currentBuzz : TossupBuzz
  score : Int
deriving DecidableEq, Repr

/-- Embedding of `initialState` of the tossup reader slice. -/
def initialTossupReaderState : TossupReaderState where
  status := ReaderStatus.idle
  tossups := []
  results := []
  currentTossup := none
  currentResult := none
  currentBuzz := { isPower := false, readText := [], index := 0, textWithBuzz := [] }
  score := 0

/-- Embedding of the `buzz` reducer. -/
def buzzReducer (s : TossupReaderState) : TossupReaderState :=
  if s.status = ReaderStatus.reading then { s with status := ReaderStatus.answering } else s

/-- Embedding of the `setBuzz` reducer. -/
def setBuzzReducer (s : TossupReaderState) (b : TossupBuzz) : TossupReaderState :=
  { s with currentBuzz := b }

/-- Embedding of the `prompt` reducer. -/
def promptReducer (s : TossupReaderState) : TossupReaderState :=
  if s.status = ReaderStatus.answering ∨ s.status = ReaderStatus.prompting then
    { s with status := ReaderStatus.prompting }
  else s

/-- Embedding of the `submitAnswer` reducer; `results.unshift(payload)`
prepends the payload to the result list. -/
def submitAnswerReducer (s : TossupReaderState) (r : TossupResult) : TossupReaderState :=
  if s.status = ReaderStatus.answering ∨ s.status = ReaderStatus.prompting then
    { s with
      status := ReaderStatus.judged
      currentResult := some r
      results := r :: s.results
      score := s.score + r.score }
  else s

/-- Embedding of the `fetchTossups.fulfilled` extra reducer. -/
def fetchTossupsFulfilled (s : TossupReaderState) (payload : List Tossup) : TossupReaderState :=
  { s with tossups := s.tossups ++ payload }

/-- Embedding of the `nextTossup.pending` extra reducer. -/
def nextTossupPending (s : TossupReaderState) : TossupReaderState :=
  { s with status := ReaderStatus.fetching }

/-- Embedding of the `nextTossup.fulfilled` extra reducer: with an empty
queue the status becomes `empty`; otherwise the queue is shifted, the new
head becomes the current tossup and the status becomes `reading`. -/
def nextTossupFulfilled (s : TossupReaderState) : TossupReaderState :=
  if s.tossups = [] then { s with status := ReaderStatus.empty }
  else
    { s with
      currentResult := none
      tossups := s.tossups.tail
      currentTossup := s.tossups.tail.head?
      status := ReaderStatus.reading }

/-! ### Text normalizer (src/utils/reader.tsx `normalizeAnswer` with the
helpers of utils/string.ts; missing helpers are modelled from the spec) -/

/-- Quote characters removed by the `quotes` regex of the missing
utils/regex.ts; modelled from the spec as the ASCII and typographic
quote marks (code points 39, 34, 0x2018, 0x2019, 0x201c, 0x201d). -/
def isQuoteC (c : Char) : Bool :=
  c.toNat = 39 || c.toNat = 34 || c.toNat = 8216 || c.toNat = 8217 ||
    c.toNat = 8220 || c.toNat = 8221

/-- Modelled from the spec: the external `compromise` call
`nlp(s).normalize('light').text()`.  The spec attributes all observable
normalization (markup, digits, punctuation, diacritics, case, spacing) to
the steps the pipeline itself performs afterwards, so the external light
normalization is modelled as the identity. -/
def nlpNormalizeLight (s : List Char) : List Char :=
  s

/-- The `replaceAll(quotes, '')` step. -/
def removeQuotes (s : List Char) : List Char :=
  s.filter (fun c => !isQuoteC c)

/-- Embedding of `isNumeric` (utils/string.ts): the regex `^-?\d+$`. -/
def isNumericL (s : List Char) : Bool :=
  match s with
  | [] => false
  | c :: rest => if c = '-' then rest ≠ [] && rest.all isDigitC else (c :: rest).all isDigitC

/-- Numeric value of a digit string. -/
def parseDigits (s : List Char) : Nat :=
  s.foldl (fun a c => a * 10 + (c.toNat - 48)) 0

/-- English names of 0..19 for the number-to-words conversion. -/
def smallWord (n : Nat) : List Char :=
  if n = 0 then strL "zero" else if n = 1 then strL "one" else if n = 2 then strL "two"
  else if n = 3 then strL "three" else if n = 4 then strL "four" else if n = 5 then strL "five"
  else if n = 6 then strL "six" else if n = 7 then strL "seven" else if n = 8 then strL "eight"
  else if n = 9 then strL "nine" else if n = 10 then strL "ten" else if n = 11 then strL "eleven"
  else if n = 12 then strL "twelve" else if n = 13 then strL "thirteen"
  else if n = 14 then strL "fourteen" else if n = 15 then strL "fifteen"
  else if n = 16 then strL "sixteen" else if n = 17 then strL "seventeen"
  else if n = 18 then strL "eighteen" else strL "nineteen"

/-- English names of the tens for the number-to-words conversion. -/
def tensWord (n : Nat) : List Char :=
  if n = 2 then strL "twenty" else if n = 3 then strL "thirty" else if n = 4 then strL "forty"
  else if n = 5 then strL "fifty" else if n = 6 then strL "sixty" else if n = 7 then strL "seventy"
  else if n = 8 then strL "eighty" else strL "ninety"

/-- Words for 1..99, hyphenating compound tens as the number-to-words
library does ("twenty-one"). -/
def underHundredWords (n : Nat) : List Char :=
  if n < 20 then smallWord n
  else tensWord (n / 10) ++ (if n % 10 = 0 then [] else '-' :: smallWord (n % 10))

/-- Words for 1..999. -/
def underThousandWords (n : Nat) : List Char :=
  if n < 100 then underHundredWords n
  else smallWord (n / 100) ++ strL " hundred" ++
    (if n % 100 = 0 then [] else ' ' :: underHundredWords (n % 100))

/-- Scale names of the number-to-words library (beyond the listed scales
the name is left empty; such magnitudes are unreachable in the claims). -/
def scaleName (k : Nat) : List Char :=
  [strL "thousand", strL "million", strL "billion", strL "trillion",
    strL "quadrillion", strL "quintillion"].getD k []

/-- Base-1000 digit groups of a number, least significant first; the fuel
argument (the number itself, which dominates the group count) makes the
recursion structural so that the kernel can evaluate it. -/
def groupsOf1000Aux : Nat → Nat → List Nat
  | 0, _ => []
  | fuel + 1, n => if n = 0 then [] else n % 1000 :: groupsOf1000Aux fuel (n / 1000)

/-- Base-1000 digit groups of a number, least significant first. -/
def groupsOf1000 (n : Nat) : List Nat :=
  groupsOf1000Aux n n

/-- Render base-1000 groups most significant first, separating non-zero
groups with commas as the number-to-words library does. -/
def renderGroups : List Nat → Nat → List Char
  | [], _ => []
  | g :: rest, idx =>
    let hi := renderGroups rest (idx + 1)
    let cur :=
      if g = 0 then []
      else underThousandWords g ++ (if idx = 0 then [] else ' ' :: scaleName (idx - 1))
    if hi = [] then cur else if cur = [] then hi else hi ++ strL ", " ++ cur

/-- English words of a natural number, in the format of the
number-to-words library. -/
def toWordsNat (n : Nat) : List Char :=
  if n = 0 then strL "zero" else renderGroups (groupsOf1000 n) 0

/-- Modelled from the spec: the external number-to-words `toWords` call on
a numeric string ("expand digit sequences to word form"). -/
def toWordsL (w : List Char) : List Char :=
  match w with
  | '-' :: rest =>
    if parseDigits rest = 0 then toWordsNat 0 else strL "minus " ++ toWordsNat (parseDigits rest)
  | _ => toWordsNat (parseDigits w)

/-- Embedding of `convertNumberToWords` (utils/string.ts):
`s.split(' ').map(w => isNumeric(w) ? toWords(w) : w).join(' ')`. -/
def convertNumberToWords (s : List Char) : List Char :=
  joinSp ((splitSp s).map (fun w => if isNumericL w then toWordsL w else w))

/-- Modelled from the spec: `removeNonAlphanumeric` of the missing
utils/regex.ts; drops every character that is neither alphanumeric nor
whitespace ("strip punctuation/diacritics"). -/
def removeNonAlphanumeric (s : List Char) : List Char :=
  s.filter (fun c => isAlphaNumC c || isWsC c)

/-- Modelled from the spec: `normalizeSpacing` of the missing
utils/string.ts ("whitespace-collapsed string"): collapse whitespace runs
to single spaces and trim the ends. -/
def normalizeSpacing (s : List Char) : List Char :=
  joinSp (wordsOf s)

/-- Embedding of `normalizeAnswer` (src/utils/reader.tsx):
normalizeSpacing(removeNonAlphanumeric(convertNumberToWords(
nlp(s).normalize('light').text().replaceAll(quotes, '')).toLowerCase())). -/
def normalizeAnswer (s : List Char) : List Char :=
  normalizeSpacing
    (removeNonAlphanumeric
      ((convertNumberToWords (removeQuotes (nlpNormalizeLight s))).map toLowerC))

/-! ### Dice-coefficient similarity (external string-similarity library)
and the Judge (src/utils/reader.tsx) -/

/-- Whitespace removal, the `replace(/\s+/g, '')` step of
`compareTwoStrings`. -/
def stripWsL (s : List Char) : List Char :=
  s.filter (fun c => !isWsC c)

/-- Adjacent character pairs of a string, the bigrams of the Dice
coefficient. -/
def bigrams : List Char → List (Char × Char)
  | [] => []
  | [_] => []
  | a :: b :: rest => (a, b) :: bigrams (b :: rest)

/-- Size of the multiset intersection of two bigram lists: each bigram of
the second list consumes at most one matching bigram of the first, as in
the counting map of the library. -/
def interSize : List (Char × Char) → List (Char × Char) → Nat
  | _, [] => 0
  | fb, b :: rest => if b ∈ fb then interSize (fb.erase b) rest + 1 else interSize fb rest

/-- Embedding of `compareTwoStrings` of the string-similarity library
(Dice's coefficient on bigrams), with the IEEE double result modelled as
the exact rational; for these values comparison with the threshold 0.6
agrees with the exact comparison with 3/5. -/
def compareTwoStrings (x y : List Char) : ℚ :=
  let f := stripWsL x
  let s := stripWsL y
  if f = s then 1
  else if f.length < 2 || s.length < 2 then 0
  else mkRat (2 * (interSize (bigrams f) (bigrams s) : Int)) (f.length + s.length - 2)

/-- Result record of `findBestMatch` restricted to the two fields the
Judge reads: the best rating and the best-match index. -/
structure CheckAnswerResult where
  rating : ℚ
  bestMatchIndex : Int
deriving DecidableEq, Repr

/-- Loop of `findBestMatch`: walk the target strings keeping the first
index attaining the strictly largest rating. -/
def findBestMatchAux (u : List Char) : List (List Char) → Nat → Nat × ℚ → Nat × ℚ
  | [], _, best => best
  | a :: rest, i, (bi, br) =>
    if br < compareTwoStrings u a then findBestMatchAux u rest (i + 1) (i, compareTwoStrings u a)
    else findBestMatchAux u rest (i + 1) (bi, br)

/-- Embedding of `checkAnswer` (src/utils/reader.tsx): empty answer lists
produce a zero best score and index -1 instead of failing. -/
def checkAnswer (userAnswer : List Char) (answers : List (List Char)) : CheckAnswerResult :=
  match answers with
  | [] => { rating := 0, bestMatchIndex := -1 }
  | a :: rest =>
    let best := findBestMatchAux userAnswer rest 1 (0, compareTwoStrings userAnswer a)
    { rating := best.2, bestMatchIndex := (best.1 : Int) }

/-- Embedding of the `Judge` class state (src/utils/reader.tsx). -/
structure Judge where
  acceptableAnswers : List (List Char)
  promptableAnswers : List (List Char)
deriving DecidableEq, Repr

/-- Embedding of `JudgeResult` (types/tossups.ts, via its use in
src/utils/reader.tsx). -/
inductive JudgeResult where
  | correct
  | prompt
  | incorrect
deriving DecidableEq, Repr

/-- The fixed `MIN_RATING` threshold 0.6 of `Judge.judge`, the rational
3/5 (written with `mkRat` so that the kernel can evaluate it). -/
def MIN_RATING : ℚ := mkRat 3 5

/-- Embedding of `Judge.judge` (src/utils/reader.tsx): the user answer is
matched as-is against the acceptable answers; below threshold, and only
when promptable answers remain, against the promptable answers, splicing
out the best promptable match before returning the prompt verdict.  The
mutation of `this.promptableAnswers` is modelled by returning the updated
Judge state. -/
def Judge.judge (j : Judge) (userAnswer : List Char) : JudgeResult × Judge :=
  let ratings := checkAnswer userAnswer j.acceptableAnswers
  if MIN_RATING < ratings.rating then (JudgeResult.correct, j)
  else if j.promptableAnswers.length > 0 then
    let ratings2 := checkAnswer userAnswer j.promptableAnswers
    if MIN_RATING < ratings2.rating then
      (JudgeResult.prompt,
        { j with
          promptableAnswers := j.promptableAnswers.eraseIdx ratings2.bestMatchIndex.toNat })
    else (JudgeResult.incorrect, j)
  else (JudgeResult.incorrect, j)

/-! ### Answerline parser (src/utils/reader.tsx `cleanAnswerline`,
`parseAcceptableAnswers`, `parsePromptableAnswers`, `filterNegativeAnswers`;
the regexes are embedded as scanning functions with the same matching
semantics, using explicit fuel so the kernel can evaluate them) -/

/-- A nonempty all-lowercase-alphabetic word (used to state the claims
about schematic answer lines). -/
def isPlainWord (w : List Char) : Bool :=
  !w.isEmpty && w.all isLowerC

/-- Remainder after the first occurrence of the character `c`. -/
def splitAfterChar (c : Char) : List Char → Option (List Char)
  | [] => none
  | d :: rest => if d = c then some rest else splitAfterChar c rest

/-- Remainder after the first occurrence of the substring `needle`. -/
def splitAfterSub (needle : List Char) : List Char → Option (List Char)
  | [] => if needle.isEmpty then some [] else none
  | c :: rest =>
    if startsL needle (c :: rest) then some ((c :: rest).drop needle.length)
    else splitAfterSub needle rest

/-- Text before and remainder after the first occurrence of `needle`. -/
def splitBeforeSub (needle : List Char) : List Char → Option (List Char × List Char)
  | [] => if needle.isEmpty then some ([], []) else none
  | c :: rest =>
    if startsL needle (c :: rest) then some ([], (c :: rest).drop needle.length)
    else
      match splitBeforeSub needle rest with
      | some (b, a) => some (c :: b, a)
      | none => none

/-- Modelled from the spec: the `ltgt` regex of the missing utils/regex.ts
("strip author/editorial metadata enclosed in angle-bracket style
annotations"), removing HTML-escaped `&lt; ... &gt;` spans lazily. -/
def removeLtgt : Nat → List Char → List Char
  | 0, s => s
  | _ + 1, [] => []
  | fuel + 1, c :: rest =>
    if startsL (strL "&lt;") (c :: rest) then
      match splitAfterSub (strL "&gt;") ((c :: rest).drop 4) with
      | some rem => removeLtgt fuel rem
      | none => c :: removeLtgt fuel rest
    else c :: removeLtgt fuel rest

/-- The parenthetical-removal step of `cleanAnswerline`, the regex
`\((?!accept|or|prompt).*?\)`: a parenthesis not followed by one of the
keywords is dropped together with its (lazily matched) body. -/
def removeBadParens : Nat → List Char → List Char
  | 0, s => s
  | _ + 1, [] => []
  | fuel + 1, c :: rest =>
    if c = '(' &&
        !(startsL (strL "accept") rest || startsL (strL "or") rest ||
          startsL (strL "prompt") rest) then
      match splitAfterChar ')' rest with
      | some rem => removeBadParens fuel rem
      | none => c :: removeBadParens fuel rest
    else c :: removeBadParens fuel rest

/-- The `replaceAll('(', '[')` and `replaceAll(')', ']')` steps. -/
def parenToBracket (s : List Char) : List Char :=
  s.map (fun c => if c = '(' then '[' else if c = ')' then ']' else c)

/-- Embedding of `cleanAnswerline` (src/utils/reader.tsx). -/
def cleanAnswerline (s : List Char) : List Char :=
  normalizeSpacing (parenToBracket (removeBadParens
    (removeLtgt s.length s).length (removeLtgt s.length s)))

/-- Modelled from the spec: the `anyTag` regex of the missing
utils/regex.ts (also `removeTags`): remove `<...>` spans lazily. -/
def removeAnyTag : Nat → List Char → List Char
  | 0, s => s
  | _ + 1, [] => []
  | fuel + 1, c :: rest =>
    if c = '<' then
      match splitAfterChar '>' rest with
      | some rem => removeAnyTag fuel rem
      | none => c :: removeAnyTag fuel rest
    else c :: removeAnyTag fuel rest

/-- Modelled from the spec: `getTextBetweenTags` (utils/string.ts) with the
`betweenTags` regex of the missing utils/regex.ts: the lazily captured
spans between `<tag>` and `</tag>`. -/
def getTextBetweenTags (tag : List Char) : Nat → List Char → List (List Char)
  | 0, _ => []
  | _ + 1, [] => []
  | fuel + 1, c :: rest =>
    if startsL ('<' :: (tag ++ ['>'])) (c :: rest) then
      match splitBeforeSub ('<' :: ('/' :: (tag ++ ['>'])))
          ((c :: rest).drop ('<' :: (tag ++ ['>'])).length) with
      | some (cap, rem) => cap :: getTextBetweenTags tag fuel rem
      | none => getTextBetweenTags tag fuel rest
    else getTextBetweenTags tag fuel rest

/-- Modelled from the spec: `removeFirstNames` (missing utils/string.ts)
strips leading first-name tokens found by an external NLP person
detector, and both the original and the stripped variant enter the
candidate list.  Which leading tokens count as first names is decided by
that external detector, so it cannot be pinned down from the repository:
a theorem whose truth depends on the stripper's behavior must therefore
quantify over the stripper (see `parseAcceptableAnswersWith`).  For the
remaining uses — the kept-original half of the candidate list, the only
part the accept/or membership facts rely on — the stripper is
instantiated as the identity. -/
def removeFirstNames (s : List Char) : List Char :=
  s

/-- Modelled from the spec: one possible behavior of the external
first-name detector, recognizing exactly the given `name` as a first
name and stripping it when it is the leading token.  The spec fixes the
contract (strip leading personal/first-name tokens, keep both variants)
but not the name list, so this serves as a concrete instance of the
quantified stripper. -/
def stripName (name : List Char) (s : List Char) : List Char :=
  match wordsOf s with
  | w :: rest => if w = name then joinSp rest else s
  | [] => s

/-- Capture group of the anchored primary-answer regex
`^(.*?)(?:$|(?:\[| or ).*)`: the text up to the first `[` or ` or `, or
the whole string. -/
def primaryCapture : List Char → List Char
  | [] => []
  | c :: rest =>
    if c = '[' || startsL (strL " or ") (c :: rest) then []
    else c :: primaryCapture rest

/-- The match-start character class `[[,; ]` of the answers regexes. -/
def isDelimC (c : Char) : Bool :=
  c = '[' || c = ',' || c = ';' || c = ' '

/-- The stop class `[,;[\]]` of the capture lookahead. -/
def isStopC (c : Char) : Bool :=
  c = ',' || c = ';' || c = '[' || c = ']'

/-- The control keywords of the capture lookahead
`(?= (?:do not|prompt|accept|or|until|before|after) |[,;[\]]|$)`. -/
def lookaheadKws : List (List Char) :=
  [strL "do not", strL "prompt", strL "accept", strL "or", strL "until",
    strL "before", strL "after"]

/-- The zero-width capture lookahead: end of string, a stop character, or
a space followed by a space-terminated control keyword. -/
def lookaheadHolds (s : List Char) : Bool :=
  match s with
  | [] => true
  | c :: rest =>
    isStopC c || (c = ' ' && lookaheadKws.any (fun kw => startsL (kw ++ [' ']) rest))

/-- Lazy capture: the shortest consumed text whose following position
satisfies the lookahead, returned together with the unconsumed rest. -/
def findCapture : List Char → List Char × List Char
  | [] => ([], [])
  | c :: rest =>
    if lookaheadHolds (c :: rest) then ([], c :: rest)
    else
      let p := findCapture rest
      (c :: p.1, p.2)

/-- The keyword alternatives after the delimiter: `(?:accept |or )` for
the acceptable-answers regex (acceptKw = true) and `(?:prompt on |or )`
for the promptable regex (acceptKw = false). -/
def tryKw (acceptKw : Bool) (s : List Char) : Option (List Char) :=
  if acceptKw then
    if startsL (strL "accept ") s then some (strL "accept ")
    else if startsL (strL "or ") s then some (strL "or ")
    else none
  else
    if startsL (strL "prompt on ") s then some (strL "prompt on ")
    else if startsL (strL "or ") s then some (strL "or ")
    else none

/-- One match of the answers regexes: the delimiter character, the matched
keyword, the capture group, and the input before the match in reverse
order (determining the match index into the input). -/
structure RawMatch where
  delim : Char
  kw : List Char
  capture : List Char
  before : List Char
deriving DecidableEq, Repr

/-- Global scan of the answers regexes: try a match at every position (a
match needs a delimiter there, directly followed by a keyword), capture
lazily up to the lookahead, and continue scanning at the lookahead
position (the JS lastIndex); otherwise advance one character.  The fuel
(initially the string length, which bounds the number of steps) makes the
recursion structural. -/
def scanMatches (acceptKw : Bool) : Nat → List Char → List Char → List RawMatch
  | 0, _, _ => []
  | _ + 1, _, [] => []
  | fuel + 1, before, c :: rest =>
    if isDelimC c then
      match tryKw acceptKw rest with
      | some kw =>
        let p := findCapture (rest.drop kw.length)
        { delim := c, kw := kw, capture := p.1, before := before } ::
          scanMatches acceptKw fuel (p.1.reverse ++ (kw.reverse ++ c :: before)) p.2
      | none => scanMatches acceptKw fuel (c :: before) rest
    else scanMatches acceptKw fuel (c :: before) rest

/-- Entry point of the scan on a whole string. -/
def scanMatchesTop (acceptKw : Bool) (s : List Char) : List RawMatch :=
  scanMatches acceptKw s.length [] s

/-- The first word of the matched keyword, i.e.
`match.slice(1).split(' ')[0]` of the source (`accept`, `or` or
`prompt`). -/
def answerHeadOf (kw : List Char) : List Char :=
  kw.takeWhile (fun c => c != ' ')

/-- Walk backwards from the match position to the last `;`/`,`/`[`,
collecting the slice from that character (inclusive) to the match
(exclusive); empty when no such character exists (the JS
`slice(-1, index)` edge case yields the empty string as well). -/
def sliceFromLastDelim : List Char → List Char → List Char
  | [], _ => []
  | c :: rest, acc =>
    if c = ';' || c = ',' || c = '[' then c :: acc
    else sliceFromLastDelim rest (c :: acc)

/-- Modelled from the spec: `multipleLastIndexOf` (missing utils/string.ts)
searches backwards from the match index inclusive; the match position
itself holds the delimiter, so a `;`/`,`/`[` delimiter makes the slice
empty, and otherwise the reversed prefix is walked. -/
def prevStringOf (delim : Char) (before : List Char) : List Char :=
  if delim = ';' || delim = ',' || delim = '[' then []
  else sliceFromLastDelim before []

/-- Does the input before the match end with `neg`, i.e. the JS
`input.endsWith(neg, index)`?  `before` is the reversed prefix. -/
def endsBefore (neg : List Char) (before : List Char) : Bool :=
  startsL neg.reverse before

/-- Index of the last occurrence of `needle`, the JS `lastIndexOf`. -/
def lastSubIdx (needle : List Char) : List Char → Option Nat
  | [] => if startsL needle [] then some 0 else none
  | c :: rest =>
    match lastSubIdx needle rest with
    | some i => some (i + 1)
    | none => if startsL needle (c :: rest) then some 0 else none

/-- The `answerType` parameter of `filterNegativeAnswers`. -/
inductive AnswerType where
  | accept
  | prompt
deriving DecidableEq, Repr

/-- Embedding of `filterNegativeAnswers` (src/utils/reader.tsx): discard
matches introduced by a negating phrase.  `accept`/`prompt`-keyword
matches check the input directly before the match against the negation
list; bare-`or` matches inspect the text since the last `;`/`,`/`[`. -/
def filterNegativeAnswers (m : RawMatch) (answerType : AnswerType) : Bool :=
  if answerType = AnswerType.accept ∧ answerHeadOf m.kw = strL "accept" then
    [strL "do not", strL "do not prompt on or", strL "do not prompt or"].all
      (fun neg => !endsBefore neg m.before)
  else if answerType = AnswerType.prompt ∧ answerHeadOf m.kw = strL "prompt" then
    [strL "do not", strL "do not accept or"].all (fun neg => !endsBefore neg m.before)
  else if answerType = AnswerType.accept ∧ answerHeadOf m.kw = strL "or" then
    [strL "do not accept", strL "prompt on", strL "prompt"].all
      (fun neg => !hasSubL neg (prevStringOf m.delim m.before))
  else if answerType = AnswerType.prompt ∧ answerHeadOf m.kw = strL "or" then
    match lastSubIdx (strL "prompt on") (prevStringOf m.delim m.before) with
    | none => false
    | some promptIndex =>
      [strL "do not ", strL "do not accept or "].all (fun neg =>
        !endsBefore neg ((prevStringOf m.delim m.before).take promptIndex).reverse)
  else true

/-- Embedding of `parseAcceptableAnswers` (src/utils/reader.tsx),
parameterized over the external first-name stripper `rfn` (the
`removeFirstNames` call), whose behavior is not determined by the
repository. -/
def parseAcceptableAnswersWith (rfn : List Char → List Char)
    (answerline : List Char) : List (List Char) :=
  let normalizedAnswer := cleanAnswerline answerline
  let boldAnswers := (getTextBetweenTags (strL "strong")
    normalizedAnswer.length normalizedAnswer).map (fun x => removeAnyTag x.length x)
  let tagless := removeAnyTag normalizedAnswer.length normalizedAnswer
  let answers := primaryCapture tagless ::
    ((scanMatchesTop true tagless).filter
      (fun m => filterNegativeAnswers m AnswerType.accept)).map (fun m => m.capture)
  let allAnswers := combine boldAnswers answers
  let answersWithoutFirstNames := allAnswers.map rfn
  getUnique (((combine allAnswers answersWithoutFirstNames).map normalizeAnswer).filter
    emptyStringFilter)

/-- The source's `parseAcceptableAnswers`, at the identity-modelled
stripper. -/
def parseAcceptableAnswers (answerline : List Char) : List (List Char) :=
  parseAcceptableAnswersWith removeFirstNames answerline

/-- Embedding of `parsePromptableAnswers` (src/utils/reader.tsx). -/
def parsePromptableAnswers (answer : List Char) : List (List Char) :=
  let normalizedAnswer := cleanAnswerline answer
  let underlinedAnswers := (getTextBetweenTags (strL "u")
    normalizedAnswer.length normalizedAnswer).map (fun x => removeAnyTag x.length x)
  let tagless := removeAnyTag normalizedAnswer.length normalizedAnswer
  let prompts := ((scanMatchesTop false tagless).filter
    (fun m => filterNegativeAnswers m AnswerType.prompt)).map (fun m => m.capture)
  getUnique (((combine underlinedAnswers prompts).map normalizeAnswer).filter
    emptyStringFilter)

/-- Embedding of the `Judge` constructor, which parses the answer line. -/
def mkJudge (answerline : List Char) : Judge :=
  { acceptableAnswers := parseAcceptableAnswers answerline
    promptableAnswers := parsePromptableAnswers answerline }

/-- The text following the first word of a space-joined word list: empty,
or a space followed by the remaining joined words. -/
def joinTail : List (List Char) → List Char
  | [] => []
  | w :: ws => ' ' :: joinSp (w :: ws)

/-! ### Theorems for scoring and the state machine -/

/-- C4: for every combination of the three boolean inputs, the tossup score
function returns the power value (15) when correct and in power, the base
value (10) when correct outside power, zero when incorrect with the buzz at
the final word, and the negative penalty (-5) otherwise; the power value is
strictly greater than the base value. -/
theorem getTossupScore_cases : ∀ (p e : Bool),
    getTossupScore true true e = TossupScore.power ∧
    getTossupScore true false e = TossupScore.ten ∧
    getTossupScore false p true = TossupScore.incorrect ∧
    getTossupScore false p false = TossupScore.neg ∧
    TossupScore.power = 15 ∧ TossupScore.ten = 10 ∧
    TossupScore.incorrect = 0 ∧ TossupScore.neg = -5 ∧
    TossupScore.ten < TossupScore.power := by
  decide

/-- C5: for every list of exactly three bonus part results the bonus score
is ten times the number of correct parts (hence 30, 20, 10 or 0 for counts
3, 2, 1, 0), the count lies between 0 and 3, and the concrete list
correct/incorrect/correct scores 20. -/
theorem getBonusScore_by_count : ∀ rs : List BonusPartResult, rs.length = 3 →
    getBonusScore rs = 10 * countCorrect rs ∧
    0 ≤ countCorrect rs ∧ countCorrect rs ≤ 3 ∧
    getBonusScore [⟨true⟩, ⟨false⟩, ⟨true⟩] = 20 := by
  intro rs h
  match rs, h with
  | [a, b, c], _ =>
    rcases a with ⟨a⟩
    rcases b with ⟨b⟩
    rcases c with ⟨c⟩
    cases a <;> cases b <;> cases c <;> decide

/-- Witness for C5 at the concrete list correct/incorrect/correct. -/
theorem getBonusScore_by_count_witness :
    getBonusScore [⟨true⟩, ⟨false⟩, ⟨true⟩] = 10 * countCorrect [⟨true⟩, ⟨false⟩, ⟨true⟩] ∧
    0 ≤ countCorrect [⟨true⟩, ⟨false⟩, ⟨true⟩] ∧
    countCorrect [⟨true⟩, ⟨false⟩, ⟨true⟩] ≤ 3 ∧
    getBonusScore [⟨true⟩, ⟨false⟩, ⟨true⟩] = 20 :=
  getBonusScore_by_count [⟨true⟩, ⟨false⟩, ⟨true⟩] (by decide)

/-- C8: buzz moves the status from reading to answering and is the identity
in every other status; prompt yields the prompting status exactly from
answering or prompting; a completed next-question request yields the empty
status when the pending queue is empty and the reading status otherwise. -/
theorem readerStatus_transitions : ∀ s : TossupReaderState,
    (s.status = ReaderStatus.reading → buzzReducer s = { s with status := ReaderStatus.answering }) ∧
    (s.status ≠ ReaderStatus.reading → buzzReducer s = s) ∧
    ((promptReducer s).status = ReaderStatus.prompting →
      s.status = ReaderStatus.answering ∨ s.status = ReaderStatus.prompting) ∧
    ((s.status = ReaderStatus.answering ∨ s.status = ReaderStatus.prompting) →
      promptReducer s = { s with status := ReaderStatus.prompting }) ∧
    (s.tossups = [] → (nextTossupFulfilled s).status = ReaderStatus.empty) ∧
    (s.tossups ≠ [] → (nextTossupFulfilled s).status = ReaderStatus.reading) := by
  intro s
  obtain ⟨st, tus, res, ct, cr, cb, sc⟩ := s
  refine ⟨?_, ?_, ?_, ?_, ?_, ?_⟩ <;>
    cases st <;> cases tus <;>
      simp [buzzReducer, promptReducer, nextTossupFulfilled]

/-- Witness for C8: the transitions at a concrete reading-state with an
empty queue. -/
theorem readerStatus_transitions_witness :
    buzzReducer { initialTossupReaderState with status := ReaderStatus.reading } =
      { { initialTossupReaderState with status := ReaderStatus.reading } with
          status := ReaderStatus.answering } :=
  (readerStatus_transitions
    { initialTossupReaderState with status := ReaderStatus.reading }).1 (by decide)

/-- C9 (amended): in the answering or prompting status, submit transitions
to judged, records the result as current result, prepends it to the result
history leaving the previously recorded results unchanged, and adds its
point value to the score; in every other status submit changes nothing. -/
theorem submitAnswer_spec : ∀ (s : TossupReaderState) (r : TossupResult),
    ((s.status = ReaderStatus.answering ∨ s.status = ReaderStatus.prompting) →
      submitAnswerReducer s r =
        { s with
          status := ReaderStatus.judged
          currentResult := some r
          results := r :: s.results
          score := s.score + r.score }) ∧
    (¬(s.status = ReaderStatus.answering ∨ s.status = ReaderStatus.prompting) →
      submitAnswerReducer s r = s) := by
  intro s r
  constructor
  · intro h
    simp [submitAnswerReducer, h]
  · intro h
    simp [submitAnswerReducer, h]

/-- Witness for C9's amended theorem at a concrete answering state. -/
theorem submitAnswer_spec_witness :
    submitAnswerReducer { initialTossupReaderState with status := ReaderStatus.answering }
      { tossup := ⟨[], [], [], [], 0, 0, 0, []⟩
        isCorrect := true
        submittedAnswer := []
        score := 10
        buzz := { isPower := false, readText := [], index := 0, textWithBuzz := [] } } =
    { { initialTossupReaderState with status := ReaderStatus.answering } with
      status := ReaderStatus.judged
      currentResult := some
        { tossup := ⟨[], [], [], [], 0, 0, 0, []⟩
          isCorrect := true
          submittedAnswer := []
          score := 10
          buzz := { isPower := false, readText := [], index := 0, textWithBuzz := [] } }
      results :=
        { tossup := ⟨[], [], [], [], 0, 0, 0, []⟩
          isCorrect := true
          submittedAnswer := []
          score := 10
          buzz := { isPower := false, readText := [], index := 0, textWithBuzz := [] } } ::
          ({ initialTossupReaderState with status := ReaderStatus.answering } : TossupReaderState).results
      score :=
        ({ initialTossupReaderState with status := ReaderStatus.answering } : TossupReaderState).score + 10 } :=
  (submitAnswer_spec { initialTossupReaderState with status := ReaderStatus.answering } _).1
    (by decide)

/-- C9 counterexample: the claim says the result is appended to the ordered
history, but the reducer prepends it: starting from a history holding one
earlier result, the submitted result ends up in front, not at the back. -/
theorem submitAnswer_not_append :
    (({ initialTossupReaderState with
        status := ReaderStatus.answering
        results := [{ tossup := ⟨[], [], [], [], 0, 0, 0, []⟩
                      isCorrect := true
                      submittedAnswer := []
                      score := 10
                      buzz := { isPower := false, readText := [], index := 0, textWithBuzz := [] } }] } :
        TossupReaderState).status = ReaderStatus.answering) ∧
    (submitAnswerReducer
      { initialTossupReaderState with
        status := ReaderStatus.answering
        results := [{ tossup := ⟨[], [], [], [], 0, 0, 0, []⟩
                      isCorrect := true
                      submittedAnswer := []
                      score := 10
                      buzz := { isPower := false, readText := [], index := 0, textWithBuzz := [] } }] }
      { tossup := ⟨[], [], [], [], 0, 0, 0, []⟩
        isCorrect := false
        submittedAnswer := []
        score := -5
        buzz := { isPower := false, readText := [], index := 0, textWithBuzz := [] } }).results ≠
      [{ tossup := ⟨[], [], [], [], 0, 0, 0, []⟩
         isCorrect := true
         submittedAnswer := []
         score := 10
         buzz := { isPower := false, readText := [], index := 0, textWithBuzz := [] } }] ++
        [{ tossup := ⟨[], [], [], [], 0, 0, 0, []⟩
           isCorrect := false
           submittedAnswer := []
           score := -5
           buzz := { isPower := false, readText := [], index := 0, textWithBuzz := [] } }] := by
  constructor
  · rfl
  · decide

/-! ### Lemmas about the best-match search and the Judge -/

/-- The threshold constant denotes the rational 3/5, i.e. 0.6. -/
theorem MIN_RATING_eq : MIN_RATING = 3 / 5 := by
  rw [MIN_RATING, Rat.mkRat_eq_div]
  norm_num

theorem findBestMatchAux_fst_lt (u : List Char) :
    ∀ (l : List (List Char)) (i bi : Nat) (br : ℚ), bi < i →
      (findBestMatchAux u l i (bi, br)).1 < i + l.length := by
  intro l
  induction l with
  | nil => intro i bi br h; simpa [findBestMatchAux] using h
  | cons a rest ih =>
    intro i bi br h
    simp only [findBestMatchAux, List.length_cons]
    split
    · have h2 := ih (i + 1) i (compareTwoStrings u a) (Nat.lt_succ_self i)
      omega
    · have h2 := ih (i + 1) bi br (Nat.lt_succ_of_lt h)
      omega

theorem findBestMatchAux_snd_ge (u : List Char) :
    ∀ (l : List (List Char)) (i bi : Nat) (br : ℚ),
      br ≤ (findBestMatchAux u l i (bi, br)).2 := by
  intro l
  induction l with
  | nil => intro i bi br; simp [findBestMatchAux]
  | cons a rest ih =>
    intro i bi br
    simp only [findBestMatchAux]
    split
    · exact le_trans (le_of_lt (by assumption)) (ih (i + 1) i (compareTwoStrings u a))
    · exact ih (i + 1) bi br

theorem findBestMatchAux_mem_le (u : List Char) :
    ∀ (l : List (List Char)) (i bi : Nat) (br : ℚ) (a : List Char), a ∈ l →
      compareTwoStrings u a ≤ (findBestMatchAux u l i (bi, br)).2 := by
  intro l
  induction l with
  | nil => intro i bi br a ha; simp at ha
  | cons x rest ih =>
    intro i bi br a ha
    rcases List.mem_cons.mp ha with rfl | ha
    · simp only [findBestMatchAux]
      split
      · exact findBestMatchAux_snd_ge u rest (i + 1) i (compareTwoStrings u a)
      · exact le_trans (not_lt.mp (by assumption)) (findBestMatchAux_snd_ge u rest (i + 1) bi br)
    · simp only [findBestMatchAux]
      split
      · exact ih (i + 1) i (compareTwoStrings u x) a ha
      · exact ih (i + 1) bi br a ha

theorem findBestMatchAux_snd_attained (u : List Char) :
    ∀ (l : List (List Char)) (i bi : Nat) (br : ℚ),
      (findBestMatchAux u l i (bi, br)).2 = br ∨
        ∃ a ∈ l, (findBestMatchAux u l i (bi, br)).2 = compareTwoStrings u a := by
  intro l
  induction l with
  | nil => intro i bi br; left; simp [findBestMatchAux]
  | cons x rest ih =>
    intro i bi br
    simp only [findBestMatchAux]
    split
    · rcases ih (i + 1) i (compareTwoStrings u x) with h | ⟨a, ha, h⟩
      · right; exact ⟨x, List.mem_cons_self x rest, h⟩
      · right; exact ⟨a, List.mem_cons_of_mem x ha, h⟩
    · rcases ih (i + 1) bi br with h | ⟨a, ha, h⟩
      · left; exact h
      · right; exact ⟨a, List.mem_cons_of_mem x ha, h⟩

theorem checkAnswer_mem_le (u a : List Char) (answers : List (List Char)) (ha : a ∈ answers) :
    compareTwoStrings u a ≤ (checkAnswer u answers).rating := by
  match answers, ha with
  | x :: rest, ha =>
    simp only [checkAnswer]
    rcases List.mem_cons.mp ha with rfl | ha
    · exact findBestMatchAux_snd_ge u rest 1 0 (compareTwoStrings u a)
    · exact findBestMatchAux_mem_le u rest 1 0 (compareTwoStrings u x) a ha

theorem checkAnswer_attained (u : List Char) (answers : List (List Char)) (h : answers ≠ []) :
    ∃ a ∈ answers, (checkAnswer u answers).rating = compareTwoStrings u a := by
  match answers with
  | x :: rest =>
    simp only [checkAnswer]
    rcases findBestMatchAux_snd_attained u rest 1 0 (compareTwoStrings u x) with h2 | ⟨a, ha, h2⟩
    · exact ⟨x, List.mem_cons_self x rest, h2⟩
    · exact ⟨a, List.mem_cons_of_mem x ha, h2⟩

theorem checkAnswer_index_lt (u : List Char) (answers : List (List Char)) (h : answers ≠ []) :
    (checkAnswer u answers).bestMatchIndex.toNat < answers.length := by
  match answers with
  | x :: rest =>
    simp only [checkAnswer, List.length_cons]
    have h2 := findBestMatchAux_fst_lt u rest 1 0 (compareTwoStrings u x) Nat.zero_lt_one
    simp only [Int.toNat_natCast]
    omega

/-- C10: a judge call never changes the acceptable answers; on a verdict
other than prompt it changes nothing at all; on a prompt verdict exactly
the best-matching promptable entry is removed, the remainder being the
other entries in their original relative order. -/
theorem judge_frame : ∀ (j : Judge) (u : List Char),
    ((j.judge u).2).acceptableAnswers = j.acceptableAnswers ∧
    ((j.judge u).1 ≠ JudgeResult.prompt → (j.judge u).2 = j) ∧
    ((j.judge u).1 = JudgeResult.prompt →
      (checkAnswer u j.promptableAnswers).bestMatchIndex.toNat < j.promptableAnswers.length ∧
      ((j.judge u).2).promptableAnswers =
        j.promptableAnswers.eraseIdx (checkAnswer u j.promptableAnswers).bestMatchIndex.toNat ∧
      ((j.judge u).2).promptableAnswers =
        j.promptableAnswers.take (checkAnswer u j.promptableAnswers).bestMatchIndex.toNat ++
          j.promptableAnswers.drop ((checkAnswer u j.promptableAnswers).bestMatchIndex.toNat + 1) ∧
      ((j.judge u).2).promptableAnswers.length + 1 = j.promptableAnswers.length) := by
  intro j u
  by_cases h1 : MIN_RATING < (checkAnswer u j.acceptableAnswers).rating
  · have hj : j.judge u = (JudgeResult.correct, j) := by
      simp [Judge.judge, h1]
    rw [hj]
    exact ⟨rfl, fun _ => rfl, fun hc => by simp at hc⟩
  · by_cases h2 : j.promptableAnswers.length > 0
    · by_cases h3 : MIN_RATING < (checkAnswer u j.promptableAnswers).rating
      · have hne : j.promptableAnswers ≠ [] := by
          intro he
          rw [he] at h2
          simp at h2
        have hidx := checkAnswer_index_lt u j.promptableAnswers hne
        have hj : j.judge u = (JudgeResult.prompt, { j with promptableAnswers := j.promptableAnswers.eraseIdx (checkAnswer u j.promptableAnswers).bestMatchIndex.toNat }) := by
          simp [Judge.judge, h1, h2, h3]
        rw [hj]
        refine ⟨rfl, fun hne2 => absurd rfl hne2, fun _ => ⟨hidx, rfl, ?_, ?_⟩⟩
        · exact List.eraseIdx_eq_take_drop_succ j.promptableAnswers _
        · exact List.length_eraseIdx_add_one hidx
      · have hj : j.judge u = (JudgeResult.incorrect, j) := by
          simp [Judge.judge, h1, h2, h3]
        rw [hj]
        exact ⟨rfl, fun _ => rfl, fun hc => by simp at hc⟩
    · have hj : j.judge u = (JudgeResult.incorrect, j) := by
        simp [Judge.judge, h1, h2]
      rw [hj]
      exact ⟨rfl, fun _ => rfl, fun hc => by simp at hc⟩

/-- Witness for C10 at a concrete prompt-producing call. -/
theorem judge_frame_witness :
    (((Judge.mk [] [strL "waterloo"]).judge (strL "waterloo")).2).acceptableAnswers =
      (Judge.mk [] [strL "waterloo"]).acceptableAnswers ∧
    (checkAnswer (strL "waterloo")
        (Judge.mk [] [strL "waterloo"]).promptableAnswers).bestMatchIndex.toNat <
      (Judge.mk [] [strL "waterloo"]).promptableAnswers.length ∧
    (((Judge.mk [] [strL "waterloo"]).judge (strL "waterloo")).2).promptableAnswers =
      (Judge.mk [] [strL "waterloo"]).promptableAnswers.eraseIdx
        (checkAnswer (strL "waterloo")
          (Judge.mk [] [strL "waterloo"]).promptableAnswers).bestMatchIndex.toNat := by
  have H := judge_frame (Judge.mk [] [strL "waterloo"]) (strL "waterloo")
  have HP := H.2.2 (by decide)
  exact ⟨H.1, HP.1, HP.2.1⟩

/-- C2: if a judge call returns the prompt verdict, the consumed promptable
entry is removed from the Judge state (the promptable list shrinks by one
while the acceptable list is unchanged), and when every remaining
promptable entry rates at or below the threshold for the same submission,
repeating that submission yields the incorrect verdict and leaves the
state unchanged. -/
theorem judge_prompt_then_incorrect : ∀ (j j' : Judge) (u : List Char),
    j.judge u = (JudgeResult.prompt, j') →
    j'.acceptableAnswers = j.acceptableAnswers ∧
    j'.promptableAnswers.length + 1 = j.promptableAnswers.length ∧
    ((∀ p ∈ j'.promptableAnswers, compareTwoStrings u p ≤ MIN_RATING) →
      j'.judge u = (JudgeResult.incorrect, j')) := by
  intro j j' u h
  by_cases h1 : MIN_RATING < (checkAnswer u j.acceptableAnswers).rating
  · have hj : j.judge u = (JudgeResult.correct, j) := by
      simp [Judge.judge, h1]
    rw [hj] at h
    simp at h
  · by_cases h2 : j.promptableAnswers.length > 0
    · by_cases h3 : MIN_RATING < (checkAnswer u j.promptableAnswers).rating
      · have hne : j.promptableAnswers ≠ [] := by
          intro he
          rw [he] at h2
          simp at h2
        have hidx := checkAnswer_index_lt u j.promptableAnswers hne
        have hj : j.judge u = (JudgeResult.prompt, { j with promptableAnswers := j.promptableAnswers.eraseIdx (checkAnswer u j.promptableAnswers).bestMatchIndex.toNat }) := by
          simp [Judge.judge, h1, h2, h3]
        rw [hj, Prod.mk.injEq] at h
        obtain ⟨-, rfl⟩ := h
        refine ⟨rfl, ?_, ?_⟩
        · exact List.length_eraseIdx_add_one hidx
        · intro hall
          by_cases hem : j.promptableAnswers.eraseIdx
              (checkAnswer u j.promptableAnswers).bestMatchIndex.toNat = []
          · simp [Judge.judge, h1, hem]
          · obtain ⟨p, hp, hpe⟩ := checkAnswer_attained u _ hem
            have hlow : ¬ MIN_RATING <
                (checkAnswer u (j.promptableAnswers.eraseIdx
                  (checkAnswer u j.promptableAnswers).bestMatchIndex.toNat)).rating := by
              rw [hpe]
              exact not_lt.mpr (hall p hp)
            simp [Judge.judge, h1, hem, hlow]
      · have hj : j.judge u = (JudgeResult.incorrect, j) := by
          simp [Judge.judge, h1, h2, h3]
        rw [hj] at h
        simp at h
    · have hj : j.judge u = (JudgeResult.incorrect, j) := by
        simp [Judge.judge, h1, h2]
      rw [hj] at h
      simp at h

/-- Witness for C2: after consuming the only promptable entry with a
prompt verdict, the identical submission is judged incorrect. -/
theorem judge_prompt_then_incorrect_witness :
    (Judge.mk [] []).acceptableAnswers = (Judge.mk [] [strL "bonaparte"]).acceptableAnswers ∧
    (Judge.mk [] []).promptableAnswers.length + 1 =
      (Judge.mk [] [strL "bonaparte"]).promptableAnswers.length ∧
    (Judge.mk [] []).judge (strL "bonaparte") = (JudgeResult.incorrect, Judge.mk [] []) := by
  have H := judge_prompt_then_incorrect (Judge.mk [] [strL "bonaparte"]) (Judge.mk [] [])
    (strL "bonaparte") (by decide)
  exact ⟨H.1, H.2.1, H.2.2 (by decide)⟩

/-! ### Lemmas about characters and the string helpers -/

theorem charOfNat_toNat (n : Nat) (h : n.isValidChar) : (Char.ofNat n).toNat = n := by
  simp only [Char.ofNat, h, dite_true]
  rfl

theorem toLowerC_toNat (c : Char) :
    (toLowerC c).toNat = if isUpperC c then c.toNat + 32 else c.toNat := by
  by_cases h : isUpperC c = true
  · have hb : 65 ≤ c.toNat ∧ c.toNat ≤ 90 := by simpa [isUpperC] using h
    have hv : (c.toNat + 32).isValidChar := Or.inl (by omega)
    simp [toLowerC, h, charOfNat_toNat _ hv]
  · simp [toLowerC, h]

theorem isUpperC_toLowerC (c : Char) : isUpperC (toLowerC c) = false := by
  have ht := toLowerC_toNat c
  by_cases h : isUpperC c = true
  · rw [if_pos h] at ht
    have hb : 65 ≤ c.toNat ∧ c.toNat ≤ 90 := by simpa [isUpperC] using h
    simp only [isUpperC, ht]
    simp only [Bool.and_eq_false_iff, decide_eq_false_iff_not]
    omega
  · rw [if_neg h] at ht
    simp only [isUpperC] at h ⊢
    simp only [ht]
    simpa using h

theorem toLowerC_eq_self {c : Char} (h : isUpperC c = false) : toLowerC c = c := by
  simp [toLowerC, h]

theorem isQuoteC_eq_false {c : Char} (h : isAlphaNumC c = true) : isQuoteC c = false := by
  simp only [isAlphaNumC, isLowerC, isUpperC, isDigitC, Bool.or_eq_true, Bool.and_eq_true,
    decide_eq_true_eq] at h
  simp only [isQuoteC, Bool.or_eq_false_iff, decide_eq_false_iff_not]
  omega

theorem isWsC_eq_false_of_alphaNum {c : Char} (h : isAlphaNumC c = true) : isWsC c = false := by
  simp only [isAlphaNumC, isLowerC, isUpperC, isDigitC, Bool.or_eq_true, Bool.and_eq_true,
    decide_eq_true_eq] at h
  simp only [isWsC, Bool.or_eq_false_iff, decide_eq_false_iff_not]
  omega

theorem ne_sp_of_alphaNum {c : Char} (h : isAlphaNumC c = true) : c ≠ ' ' := by
  intro he
  subst he
  simp [isAlphaNumC, isLowerC, isUpperC, isDigitC] at h

theorem map_id_of_mem {α : Type} {f : α → α} :
    ∀ l : List α, (∀ c ∈ l, f c = c) → l.map f = l := by
  intro l h
  induction l with
  | nil => rfl
  | cons a t ih =>
    simp only [List.map_cons]
    rw [h a (by simp), ih (fun c hc => h c (by simp [hc]))]

theorem splitSp_ne_nil : ∀ s : List Char, splitSp s ≠ [] := by
  intro s
  induction s with
  | nil => simp [splitSp]
  | cons c rest ih =>
    by_cases h : c = ' '
    · simp [splitSp, h]
    · simp only [splitSp, h, if_false]
      rcases hs : splitSp rest with _ | ⟨w, ws⟩
      · simp
      · simp

theorem joinSp_splitSp : ∀ s : List Char, joinSp (splitSp s) = s := by
  intro s
  induction s with
  | nil => rfl
  | cons c rest ih =>
    by_cases h : c = ' '
    · subst h
      simp only [splitSp, if_pos rfl]
      rcases hs : splitSp rest with _ | ⟨w, ws⟩
      · exact absurd hs (splitSp_ne_nil rest)
      · rw [hs] at ih
        simpa [joinSp] using ih
    · simp only [splitSp, h, if_false]
      rcases hs : splitSp rest with _ | ⟨w, ws⟩
      · exact absurd hs (splitSp_ne_nil rest)
      · rw [hs] at ih
        rcases ws with _ | ⟨v, vs⟩
        · simp only [joinSp] at ih ⊢
          rw [ih]
        · simp only [joinSp] at ih ⊢
          rw [List.cons_append, ih]


theorem splitSp_word : ∀ w : List Char, (∀ c ∈ w, c ≠ ' ') → splitSp w = [w] := by
  intro w h
  induction w with
  | nil => rfl
  | cons c rest ih =>
    have hc : c ≠ ' ' := h c (by simp)
    simp only [splitSp, hc, if_false]
    rw [ih (fun d hd => h d (by simp [hd]))]

theorem splitSp_append_word :
    ∀ (w r : List Char), (∀ c ∈ w, c ≠ ' ') → splitSp (w ++ ' ' :: r) = w :: splitSp r := by
  intro w
  induction w with
  | nil => intro r _; simp [splitSp]
  | cons c rest ih =>
    intro r h
    have hc : c ≠ ' ' := h c (by simp)
    have hih := ih r (fun d hd => h d (by simp [hd]))
    simp only [List.cons_append, splitSp, hc, if_false, List.append_eq] at hih ⊢
    rw [hih]

theorem splitSp_joinSp :
    ∀ ws : List (List Char), ws ≠ [] → (∀ w ∈ ws, ∀ c ∈ w, c ≠ ' ') →
      splitSp (joinSp ws) = ws := by
  intro ws
  induction ws with
  | nil => intro h; exact absurd rfl h
  | cons w rest ih =>
    intro _ h
    rcases rest with _ | ⟨v, vs⟩
    · simp only [joinSp]
      exact splitSp_word w (h w (by simp))
    · simp only [joinSp]
      rw [splitSp_append_word w _ (h w (by simp))]
      rw [ih (by simp) (fun x hx c hc => h x (by simp [hx]) c hc)]

theorem wordsOf_sp_cons (c : Char) (r : List Char) (h : isWsC c = true) :
    wordsOf (c :: r) = wordsOf r := by
  simp only [wordsOf, h, if_true]

theorem wordsOf_word : ∀ w : List Char, w ≠ [] → (∀ c ∈ w, isWsC c = false) →
    wordsOf w = [w] := by
  intro w
  induction w with
  | nil => intro h; exact absurd rfl h
  | cons c rest ih =>
    intro _ h
    have hc : isWsC c = false := h c (by simp)
    rcases rest with _ | ⟨r, rest'⟩
    · simp [wordsOf, hc]
    · have hr : isWsC r = false := h r (by simp)
      have h0 : wordsOf (r :: rest') = [r :: rest'] :=
        ih (by simp) (fun d hd => h d (by simp [hd]))
      rw [wordsOf, hc, h0]
      simp [hr]

theorem wordsOf_append_word :
    ∀ (w r : List Char), w ≠ [] → (∀ c ∈ w, isWsC c = false) →
      wordsOf (w ++ ' ' :: r) = w :: wordsOf r := by
  intro w
  induction w with
  | nil => intro r h; exact absurd rfl h
  | cons c rest ih =>
    intro r _ h
    have hc : isWsC c = false := h c (by simp)
    rcases rest with _ | ⟨d, rest'⟩
    · simp only [List.singleton_append]
      rw [wordsOf, hc, wordsOf_sp_cons ' ' r (by decide)]
      have hsp : isWsC ' ' = true := by decide
      simp [hsp]
    · have hd : isWsC d = false := h d (by simp)
      have hih : wordsOf ((d :: rest') ++ ' ' :: r) = (d :: rest') :: wordsOf r :=
        ih r (by simp) (fun x hx => h x (by simp [hx]))
      simp only [List.cons_append] at hih ⊢
      rw [wordsOf, hc, hih]
      simp [hd]

theorem wordsOf_joinSp :
    ∀ ws : List (List Char), (∀ w ∈ ws, w ≠ [] ∧ ∀ c ∈ w, isWsC c = false) →
      wordsOf (joinSp ws) = ws := by
  intro ws
  induction ws with
  | nil => intro _; rfl
  | cons w rest ih =>
    intro h
    rcases rest with _ | ⟨v, vs⟩
    · simp only [joinSp]
      exact wordsOf_word w (h w (by simp)).1 (h w (by simp)).2
    · simp only [joinSp]
      rw [wordsOf_append_word w _ (h w (by simp)).1 (h w (by simp)).2]
      rw [ih (fun x hx => h x (by simp [hx]))]

theorem wordsOf_mem :
    ∀ (s : List Char) (w : List Char), w ∈ wordsOf s →
      w ≠ [] ∧ ∀ c ∈ w, isWsC c = false ∧ c ∈ s := by
  intro s
  induction s with
  | nil => intro w hw; simp [wordsOf] at hw
  | cons c rest ih =>
    intro w hw
    by_cases hc : isWsC c = true
    · rw [wordsOf_sp_cons _ _ hc] at hw
      obtain ⟨h1, h2⟩ := ih w hw
      exact ⟨h1, fun d hd => ⟨(h2 d hd).1, List.mem_cons_of_mem c (h2 d hd).2⟩⟩
    · have hc' : isWsC c = false := by simpa using hc
      rw [wordsOf, hc'] at hw
      simp only [Bool.false_eq_true, if_false] at hw
      by_cases hh : isWsC (rest.headD ' ') = true
      · rw [hh, if_pos rfl] at hw
        rcases List.mem_cons.mp hw with rfl | hw2
        · exact ⟨by simp, fun d hd => by
            simp only [List.mem_singleton] at hd
            subst hd
            exact ⟨hc', by simp⟩⟩
        · obtain ⟨h1, h2⟩ := ih w hw2
          exact ⟨h1, fun d hd => ⟨(h2 d hd).1, List.mem_cons_of_mem c (h2 d hd).2⟩⟩
      · have hh' : isWsC (rest.headD ' ') = false := by simpa using hh
        rw [hh'] at hw
        simp only [Bool.false_eq_true, if_false] at hw
        rcases h0 : wordsOf rest with _ | ⟨w₀, ws₀⟩
        · rw [h0] at hw
          simp only [List.mem_singleton] at hw
          subst hw
          exact ⟨by simp, fun d hd => by
            simp only [List.mem_singleton] at hd
            subst hd
            exact ⟨hc', by simp⟩⟩
        · rw [h0] at hw
          rcases List.mem_cons.mp hw with rfl | hw2
          · have hw₀ : w₀ ∈ wordsOf rest := by rw [h0]; simp
            obtain ⟨h1, h2⟩ := ih w₀ hw₀
            refine ⟨by simp, fun d hd => ?_⟩
            rcases List.mem_cons.mp hd with rfl | hd2
            · exact ⟨hc', by simp⟩
            · exact ⟨(h2 d hd2).1, List.mem_cons_of_mem c (h2 d hd2).2⟩
          · have hw2' : w ∈ wordsOf rest := by rw [h0]; simp [hw2]
            obtain ⟨h1, h2⟩ := ih w hw2'
            exact ⟨h1, fun d hd => ⟨(h2 d hd).1, List.mem_cons_of_mem c (h2 d hd).2⟩⟩

theorem mem_joinSp :
    ∀ (ws : List (List Char)) (c : Char), c ∈ joinSp ws → c = ' ' ∨ ∃ w ∈ ws, c ∈ w := by
  intro ws
  induction ws with
  | nil => intro c hc; simp [joinSp] at hc
  | cons w rest ih =>
    intro c hc
    rcases rest with _ | ⟨v, vs⟩
    · simp only [joinSp] at hc
      exact Or.inr ⟨w, by simp, hc⟩
    · simp only [joinSp] at hc
      rcases List.mem_append.mp hc with h | h
      · exact Or.inr ⟨w, by simp, h⟩
      · rcases List.mem_cons.mp h with rfl | h2
        · exact Or.inl rfl
        · rcases ih c h2 with h3 | ⟨x, hx, hcx⟩
          · exact Or.inl h3
          · exact Or.inr ⟨x, by simp [hx], hcx⟩

theorem mem_joinSp_of :
    ∀ (ws : List (List Char)) (w : List Char) (c : Char), w ∈ ws → c ∈ w → c ∈ joinSp ws := by
  intro ws
  induction ws with
  | nil => intro w c hw _; simp at hw
  | cons x rest ih =>
    intro w c hw hc
    rcases rest with _ | ⟨v, vs⟩
    · simp only [List.mem_singleton] at hw
      subst hw
      simpa [joinSp] using hc
    · simp only [joinSp]
      rcases List.mem_cons.mp hw with rfl | hw2
      · exact List.mem_append.mpr (Or.inl hc)
      · exact List.mem_append.mpr (Or.inr (List.mem_cons_of_mem ' ' (ih w c hw2 hc)))

theorem isNumericL_has_digit :
    ∀ w : List Char, isNumericL w = true → ∃ c ∈ w, isDigitC c = true := by
  intro w h
  rcases w with _ | ⟨c, rest⟩
  · simp [isNumericL] at h
  · by_cases hm : c = '-'
    · subst hm
      simp only [isNumericL, if_true, Bool.and_eq_true, List.all_eq_true,
        decide_eq_true_eq, if_pos] at h
      rcases hr : rest with _ | ⟨d, rest'⟩
      · rw [hr] at h; simp at h
      · exact ⟨d, by simp [hr], h.2 d (by simp [hr])⟩
    · simp only [isNumericL, hm, if_false, List.all_eq_true] at h
      exact ⟨c, by simp, h c (by simp)⟩

theorem isNumericL_eq_false {w : List Char} (h : ∀ c ∈ w, isDigitC c = false) :
    isNumericL w = false := by
  cases hn : isNumericL w
  · rfl
  · obtain ⟨c, hc, hd⟩ := isNumericL_has_digit w hn
    rw [h c hc] at hd
    exact absurd hd (by simp)

theorem convertNumberToWords_id {s : List Char}
    (h : ∀ w ∈ splitSp s, isNumericL w = false) : convertNumberToWords s = s := by
  unfold convertNumberToWords
  have hmap : (splitSp s).map (fun w => if isNumericL w then toWordsL w else w) = splitSp s :=
    map_id_of_mem (splitSp s) (fun w hw => by rw [h w hw]; simp)
  rw [hmap, joinSp_splitSp]

/-- Strings that are single-space-joined lists of nonempty words of
non-uppercase, digit-free alphanumeric characters are fixed points of the
whole normalizeAnswer pipeline. -/
theorem normalizeAnswer_joinSp_fixed :
    ∀ ws : List (List Char),
      (∀ w ∈ ws, w ≠ [] ∧ ∀ c ∈ w,
        isAlphaNumC c = true ∧ isUpperC c = false ∧ isDigitC c = false) →
      normalizeAnswer (joinSp ws) = joinSp ws := by
  intro ws h
  rcases hws : ws with _ | ⟨w₀, ws₀⟩
  · decide
  · rw [← hws]
    have hne : ws ≠ [] := by rw [hws]; simp
    have hchar : ∀ c ∈ joinSp ws,
        c = ' ' ∨ (isAlphaNumC c = true ∧ isUpperC c = false ∧ isDigitC c = false) := by
      intro c hc
      rcases mem_joinSp ws c hc with h1 | ⟨w, hw, hcw⟩
      · exact Or.inl h1
      · exact Or.inr ((h w hw).2 c hcw)
    have h1 : removeQuotes (nlpNormalizeLight (joinSp ws)) = joinSp ws := by
      unfold nlpNormalizeLight removeQuotes
      apply List.filter_eq_self.mpr
      intro c hc
      rcases hchar c hc with rfl | ⟨ha, -, -⟩
      · decide
      · simp [isQuoteC_eq_false ha]
    have hwsp : ∀ w ∈ ws, ∀ c ∈ w, c ≠ ' ' :=
      fun w hw c hc => ne_sp_of_alphaNum ((h w hw).2 c hc).1
    have hsplit : splitSp (joinSp ws) = ws := splitSp_joinSp ws hne hwsp
    have h2 : convertNumberToWords (joinSp ws) = joinSp ws := by
      apply convertNumberToWords_id
      rw [hsplit]
      intro w hw
      exact isNumericL_eq_false (fun c hc => ((h w hw).2 c hc).2.2)
    have h3 : (joinSp ws).map toLowerC = joinSp ws := by
      apply map_id_of_mem
      intro c hc
      rcases hchar c hc with rfl | ⟨-, hu, -⟩
      · decide
      · exact toLowerC_eq_self hu
    have h4 : removeNonAlphanumeric (joinSp ws) = joinSp ws := by
      unfold removeNonAlphanumeric
      apply List.filter_eq_self.mpr
      intro c hc
      rcases hchar c hc with rfl | ⟨ha, -, -⟩
      · decide
      · simp [ha]
    have h5 : normalizeSpacing (joinSp ws) = joinSp ws := by
      unfold normalizeSpacing
      rw [wordsOf_joinSp ws (fun w hw =>
        ⟨(h w hw).1, fun c hc => isWsC_eq_false_of_alphaNum ((h w hw).2 c hc).1⟩)]
    simp only [normalizeAnswer, h1, h2, h3, h4, h5]

/-- The output of normalizeAnswer is a single-space-joined list of
nonempty words of non-uppercase alphanumeric characters. -/
theorem normalizeAnswer_shape :
    ∀ s : List Char, ∃ ws : List (List Char),
      normalizeAnswer s = joinSp ws ∧
      ∀ w ∈ ws, w ≠ [] ∧ ∀ c ∈ w, isAlphaNumC c = true ∧ isUpperC c = false := by
  intro s
  refine ⟨wordsOf (removeNonAlphanumeric
    ((convertNumberToWords (removeQuotes (nlpNormalizeLight s))).map toLowerC)), rfl, ?_⟩
  intro w hw
  obtain ⟨h1, h2⟩ := wordsOf_mem _ w hw
  refine ⟨h1, fun c hc => ?_⟩
  obtain ⟨hnws, hmem⟩ := h2 c hc
  unfold removeNonAlphanumeric at hmem
  obtain ⟨hmem2, hkeep⟩ := List.mem_filter.mp hmem
  have halnum : isAlphaNumC c = true := by
    rcases Bool.or_eq_true_iff.mp hkeep with h3 | h3
    · exact h3
    · rw [h3] at hnws; exact absurd hnws (by simp)
  obtain ⟨d, -, hd⟩ := List.mem_map.mp hmem2
  refine ⟨halnum, ?_⟩
  rw [← hd]
  exact isUpperC_toLowerC d

/-- C7 (amended): the answer normalizer is idempotent on every input whose
normalization contains no digit characters (when a digit survives, the
punctuation stripping can merge digit runs into a numeric token that only
the second pass expands to words, breaking idempotence). -/
theorem normalizeAnswer_idempotent_of_digit_free :
    ∀ s : List Char, (∀ c ∈ normalizeAnswer s, isDigitC c = false) →
      normalizeAnswer (normalizeAnswer s) = normalizeAnswer s := by
  intro s h
  obtain ⟨ws, hws, hp⟩ := normalizeAnswer_shape s
  rw [hws] at h ⊢
  exact normalizeAnswer_joinSp_fixed ws (fun w hw =>
    ⟨(hp w hw).1, fun c hc =>
      ⟨((hp w hw).2 c hc).1, ((hp w hw).2 c hc).2, h c (mem_joinSp_of ws w c hw hc)⟩⟩)

/-- Witness for C7's amended theorem at a digit-free concrete input. -/
theorem normalizeAnswer_idempotent_witness :
    normalizeAnswer (normalizeAnswer (strL "Napoleon Bonaparte")) =
      normalizeAnswer (strL "Napoleon Bonaparte") :=
  normalizeAnswer_idempotent_of_digit_free (strL "Napoleon Bonaparte") (by decide)

/-- C7 counterexample: normalization is not idempotent.  On the input
"3.5" the first pass strips the decimal point, producing the digit string
"35"; only the second pass recognizes it as numeric and expands it to
words, so normalize(normalize "3.5") = "thirtyfive" differs from
normalize "3.5" = "35". -/
theorem normalizeAnswer_not_idempotent :
    normalizeAnswer (normalizeAnswer (strL "3.5")) ≠ normalizeAnswer (strL "3.5") := by
  decide

/-- C1 (amended): the judge matches the submission as given (without
normalizing it) against every acceptable answer; the verdict is correct
exactly when the best Dice rating over the acceptable answers exceeds the
0.6 threshold; the promptable answers are consulted only otherwise, the
prompt verdict arising exactly when promptable answers remain and their
best rating exceeds the threshold; incorrect is returned exactly when
neither set yields a rating above the threshold.  The best rating is an
upper bound of, and attained by, the individual Dice ratings. -/
theorem judge_verdict_iff : ∀ (j : Judge) (u : List Char),
    ((j.judge u).1 = JudgeResult.correct ↔
      MIN_RATING < (checkAnswer u j.acceptableAnswers).rating) ∧
    ((j.judge u).1 = JudgeResult.prompt ↔
      (¬ MIN_RATING < (checkAnswer u j.acceptableAnswers).rating ∧
        j.promptableAnswers ≠ [] ∧
        MIN_RATING < (checkAnswer u j.promptableAnswers).rating)) ∧
    ((j.judge u).1 = JudgeResult.incorrect ↔
      (¬ MIN_RATING < (checkAnswer u j.acceptableAnswers).rating ∧
        (j.promptableAnswers = [] ∨
          ¬ MIN_RATING < (checkAnswer u j.promptableAnswers).rating))) ∧
    (∀ a ∈ j.acceptableAnswers,
      compareTwoStrings u a ≤ (checkAnswer u j.acceptableAnswers).rating) ∧
    (j.acceptableAnswers ≠ [] →
      ∃ a ∈ j.acceptableAnswers,
        (checkAnswer u j.acceptableAnswers).rating = compareTwoStrings u a) := by
  intro j u
  refine ⟨?_, ?_, ?_, fun a ha => checkAnswer_mem_le u a _ ha,
    fun hne => checkAnswer_attained u _ hne⟩ <;>
  · by_cases h1 : MIN_RATING < (checkAnswer u j.acceptableAnswers).rating
    · have hj : j.judge u = (JudgeResult.correct, j) := by
        simp [Judge.judge, h1]
      simp [hj, h1]
    · by_cases h2 : j.promptableAnswers.length > 0
      · have hne : j.promptableAnswers ≠ [] := by
          intro he
          rw [he] at h2
          simp at h2
        by_cases h3 : MIN_RATING < (checkAnswer u j.promptableAnswers).rating
        · have hj : j.judge u = (JudgeResult.prompt, { j with promptableAnswers := j.promptableAnswers.eraseIdx (checkAnswer u j.promptableAnswers).bestMatchIndex.toNat }) := by
            simp [Judge.judge, h1, h2, h3]
          simp [hj, h1, h2, h3, hne]
        · have hj : j.judge u = (JudgeResult.incorrect, j) := by
            simp [Judge.judge, h1, h2, h3]
          simp [hj, h1, h2, h3, hne]
      · have hee : j.promptableAnswers = [] := List.length_eq_zero.mp (by omega)
        have hj : j.judge u = (JudgeResult.incorrect, j) := by
          simp [Judge.judge, h1, h2]
        simp [hj, h1, hee]

/-- Witness for C1's amended theorem at a concrete instance. -/
theorem judge_verdict_iff_witness :
    compareTwoStrings (strL "napoleon") (strL "napoleon") ≤
      (checkAnswer (strL "napoleon")
        (Judge.mk [strL "napoleon"] []).acceptableAnswers).rating ∧
    ∃ a ∈ (Judge.mk [strL "napoleon"] []).acceptableAnswers,
      (checkAnswer (strL "napoleon")
        (Judge.mk [strL "napoleon"] []).acceptableAnswers).rating =
        compareTwoStrings (strL "napoleon") a := by
  have H := judge_verdict_iff (Judge.mk [strL "napoleon"] []) (strL "napoleon")
  exact ⟨H.2.2.2.1 (strL "napoleon") (by decide), H.2.2.2.2 (by decide)⟩

/-- C1 counterexample: the judge does not normalize the submission before
matching.  With the (already normalized) acceptable answer "napoleon", the
raw submission "NAPOLEON" is judged incorrect, although its normalization
"napoleon" is judged correct — so the claimed "normalize the submission,
then return correct iff the best score exceeds 0.6" is false as stated. -/
theorem judge_does_not_normalize :
    ((Judge.mk [strL "napoleon"] []).judge (strL "NAPOLEON")).1 = JudgeResult.incorrect ∧
    normalizeAnswer (strL "NAPOLEON") = strL "napoleon" ∧
    ((Judge.mk [strL "napoleon"] []).judge
      (normalizeAnswer (strL "NAPOLEON"))).1 = JudgeResult.correct := by
  refine ⟨by decide, by decide, by decide⟩

/-! ### Lemmas for the answerline parser -/

theorem joinSp_cons_eq (w : List Char) (ws : List (List Char)) :
    joinSp (w :: ws) = w ++ joinTail ws := by
  cases ws
  · simp [joinSp, joinTail]
  · simp [joinSp, joinTail]

theorem startsL_append_self : ∀ (p t : List Char), startsL p (p ++ t) = true := by
  intro p t
  induction p with
  | nil => simp [startsL]
  | cons c rest ih => simp [startsL, ih]

theorem startsL_mono : ∀ (p q s : List Char), startsL (p ++ q) s = true → startsL p s = true := by
  intro p
  induction p with
  | nil => intro q s _; rfl
  | cons c rest ih =>
    intro q s h
    rcases s with _ | ⟨d, s'⟩
    · simp [startsL] at h
    · simp only [List.cons_append, startsL, Bool.and_eq_true] at h ⊢
      exact ⟨h.1, ih q s' h.2⟩

theorem startsL_mem : ∀ (n s : List Char), startsL n s = true → ∀ c ∈ n, c ∈ s := by
  intro n
  induction n with
  | nil => intro s _ c hc; simp at hc
  | cons a n' ih =>
    intro s h c hc
    rcases s with _ | ⟨b, s'⟩
    · simp [startsL] at h
    · simp only [startsL, Bool.and_eq_true, decide_eq_true_eq] at h
      rcases List.mem_cons.mp hc with rfl | hc2
      · rw [h.1]; simp
      · exact List.mem_cons_of_mem b (ih s' h.2 c hc2)

theorem hasSubL_space_free :
    ∀ (needle s : List Char), ' ' ∈ needle → (∀ c ∈ s, c ≠ ' ') →
      hasSubL needle s = false := by
  intro needle s hn
  induction s with
  | nil =>
    intro _
    rcases needle with _ | ⟨c, n'⟩
    · simp at hn
    · simp [hasSubL, startsL]
  | cons c rest ih =>
    intro hs
    have h1 : startsL needle (c :: rest) = false := by
      cases hst : startsL needle (c :: rest)
      · rfl
      · have := startsL_mem needle (c :: rest) hst ' ' hn
        exact absurd this (by
          intro hmem
          rcases List.mem_cons.mp hmem with he | hmem2
          · exact hs c (by simp) he.symm
          · exact hs ' ' (by simp [hmem2]) rfl)
    simp only [hasSubL, h1, Bool.false_or]
    exact ih (fun d hd => hs d (by simp [hd]))

theorem startsL_kw_word_false :
    ∀ (kwW w t : List Char), (∀ c ∈ kwW, c ≠ ' ') → (∀ c ∈ w, c ≠ ' ') → w ≠ kwW →
      (t = [] ∨ ∃ t', t = ' ' :: t') → startsL (kwW ++ [' ']) (w ++ t) = false := by
  intro kwW
  induction kwW with
  | nil =>
    intro w t _ hw hne _
    rcases w with _ | ⟨c, w'⟩
    · exact absurd rfl hne
    · simp only [List.nil_append, List.cons_append, startsL, Bool.and_eq_true]
      have : (' ' = c) = False := by
        simp
        intro he
        exact hw c (by simp) he.symm
      simp [this]
  | cons k ks ih =>
    intro w t hkw hw hne ht
    rcases w with _ | ⟨a, w'⟩
    · rcases ht with rfl | ⟨t', rfl⟩
      · simp [startsL]
      · simp only [List.nil_append, List.cons_append, startsL]
        have : (k = ' ') = False := by
          simp
          exact hkw k (by simp)
        simp [this]
    · simp only [List.cons_append, startsL]
      by_cases hka : k = a
      · subst hka
        have : startsL (ks ++ [' ']) (w' ++ t) = false :=
          ih w' t (fun c hc => hkw c (by simp [hc])) (fun c hc => hw c (by simp [hc]))
            (fun he => hne (by rw [he])) ht
        simp [this]
      · have : (k = a) = False := by simp [hka]
        simp [this]

theorem getUniqueAux_mem :
    ∀ (l seen : List (List Char)) (a : List Char),
      a ∈ getUniqueAux seen l ↔ (a ∈ l ∧ a ∉ seen) := by
  intro l
  induction l with
  | nil => intro seen a; simp [getUniqueAux]
  | cons x xs ih =>
    intro seen a
    by_cases hx : x ∈ seen
    · simp only [getUniqueAux, if_pos hx]
      rw [ih seen a]
      constructor
      · rintro ⟨h1, h2⟩
        exact ⟨List.mem_cons_of_mem x h1, h2⟩
      · rintro ⟨h1, h2⟩
        rcases List.mem_cons.mp h1 with rfl | h3
        · exact absurd hx h2
        · exact ⟨h3, h2⟩
    · simp only [getUniqueAux, if_neg hx]
      constructor
      · intro h
        rcases List.mem_cons.mp h with rfl | h2
        · exact ⟨by simp, hx⟩
        · rw [ih (x :: seen) a] at h2
          exact ⟨List.mem_cons_of_mem x h2.1, fun hs => h2.2 (List.mem_cons_of_mem x hs)⟩
      · rintro ⟨h1, h2⟩
        rcases List.mem_cons.mp h1 with rfl | h3
        · simp
        · by_cases hax : a = x
          · subst hax; simp
          · refine List.mem_cons_of_mem x ((ih (x :: seen) a).mpr ⟨h3, ?_⟩)
            intro hs
            rcases List.mem_cons.mp hs with h4 | h4
            · exact hax h4
            · exact h2 h4

theorem lower_ne {c : Char} (h : isLowerC c = true) (d : Char)
    (hd : d.toNat < 97 ∨ 122 < d.toNat) : c ≠ d := by
  simp only [isLowerC, Bool.and_eq_true, decide_eq_true_eq] at h
  intro he
  subst he
  omega

theorem lower_not_ws {c : Char} (h : isLowerC c = true) : isWsC c = false := by
  simp only [isLowerC, Bool.and_eq_true, decide_eq_true_eq] at h
  simp only [isWsC, Bool.or_eq_false_iff, decide_eq_false_iff_not]
  omega

theorem lower_alnum {c : Char} (h : isLowerC c = true) : isAlphaNumC c = true := by
  simp [isAlphaNumC, h]

theorem lower_not_upper {c : Char} (h : isLowerC c = true) : isUpperC c = false := by
  simp only [isLowerC, Bool.and_eq_true, decide_eq_true_eq] at h
  simp only [isUpperC, Bool.and_eq_false_iff, decide_eq_false_iff_not]
  omega

theorem lower_not_digit {c : Char} (h : isLowerC c = true) : isDigitC c = false := by
  simp only [isLowerC, Bool.and_eq_true, decide_eq_true_eq] at h
  simp only [isDigitC, Bool.and_eq_false_iff, decide_eq_false_iff_not]
  omega

theorem lower_not_delim {c : Char} (h : isLowerC c = true) : isDelimC c = false := by
  simp only [isDelimC, Bool.or_eq_false_iff, decide_eq_false_iff_not]
  exact ⟨⟨⟨lower_ne h '[' (by decide), lower_ne h ',' (by decide)⟩,
    lower_ne h ';' (by decide)⟩, lower_ne h ' ' (by decide)⟩

theorem lower_not_stop {c : Char} (h : isLowerC c = true) : isStopC c = false := by
  simp only [isStopC, Bool.or_eq_false_iff, decide_eq_false_iff_not]
  exact ⟨⟨⟨lower_ne h ',' (by decide), lower_ne h ';' (by decide)⟩,
    lower_ne h '[' (by decide)⟩, lower_ne h ']' (by decide)⟩

theorem removeLtgt_id : ∀ (fuel : Nat) (s : List Char), (∀ c ∈ s, c ≠ '&') →
    removeLtgt fuel s = s := by
  intro fuel
  induction fuel with
  | zero => intro s _; rfl
  | succ f ih =>
    intro s h
    rcases s with _ | ⟨c, rest⟩
    · rfl
    · have hne : (('&' : Char) = c) = False := by
        simp
        intro he
        exact h c (by simp) he.symm
      simp only [removeLtgt, strL]
      simp only [startsL, hne, decide_False, Bool.false_and, Bool.false_eq_true, if_false]
      rw [ih rest (fun d hd => h d (by simp [hd]))]

theorem removeBadParens_id : ∀ (fuel : Nat) (s : List Char), (∀ c ∈ s, c ≠ '(') →
    removeBadParens fuel s = s := by
  intro fuel
  induction fuel with
  | zero => intro s _; rfl
  | succ f ih =>
    intro s h
    rcases s with _ | ⟨c, rest⟩
    · rfl
    · have hne : (c = '(') = False := by simp [h c (by simp)]
      simp only [removeBadParens, hne, decide_False, Bool.false_and, Bool.false_eq_true,
        if_false]
      rw [ih rest (fun d hd => h d (by simp [hd]))]

theorem removeAnyTag_id : ∀ (fuel : Nat) (s : List Char), (∀ c ∈ s, c ≠ '<') →
    removeAnyTag fuel s = s := by
  intro fuel
  induction fuel with
  | zero => intro s _; rfl
  | succ f ih =>
    intro s h
    rcases s with _ | ⟨c, rest⟩
    · rfl
    · have hne : (c = '<') = False := by simp [h c (by simp)]
      simp only [removeAnyTag, hne, if_false]
      rw [ih rest (fun d hd => h d (by simp [hd]))]

theorem getTextBetweenTags_nil :
    ∀ (tag : List Char) (fuel : Nat) (s : List Char), (∀ c ∈ s, c ≠ '<') →
      getTextBetweenTags tag fuel s = [] := by
  intro tag fuel
  induction fuel with
  | zero => intro s _; rfl
  | succ f ih =>
    intro s h
    rcases s with _ | ⟨c, rest⟩
    · rfl
    · have hne : (('<' : Char) = c) = False := by
        simp
        intro he
        exact h c (by simp) he.symm
      simp only [getTextBetweenTags, List.cons_append, startsL, hne, decide_False,
        Bool.false_and, Bool.false_eq_true, if_false]
      exact ih rest (fun d hd => h d (by simp [hd]))

theorem removeBadParens_nil : ∀ fuel : Nat, removeBadParens fuel [] = [] := by
  intro fuel
  cases fuel
  · rfl
  · rfl

theorem splitAfterChar_append :
    ∀ (B rest : List Char), (∀ c ∈ B, c ≠ ')') → splitAfterChar ')' (B ++ ')' :: rest) = some rest := by
  intro B
  induction B with
  | nil => intro rest _; simp [splitAfterChar]
  | cons c B' ih =>
    intro rest h
    have hne : (c = ')') = False := by simp [h c (by simp)]
    simp only [List.cons_append, splitAfterChar, hne, if_false]
    exact ih rest (fun d hd => h d (by simp [hd]))

theorem removeBadParens_append :
    ∀ (A : List Char) (fuel : Nat) (rest : List Char), (∀ c ∈ A, c ≠ '(') →
      removeBadParens (A.length + fuel) (A ++ rest) = A ++ removeBadParens fuel rest := by
  intro A
  induction A with
  | nil => intro fuel rest _; simp
  | cons c A' ih =>
    intro fuel rest h
    have hne : (c = '(') = False := by simp [h c (by simp)]
    have harith : (c :: A').length + fuel = (A'.length + fuel) + 1 := by
      simp [List.length_cons]
      omega
    rw [harith]
    simp only [List.cons_append, removeBadParens, hne, decide_False, Bool.false_and,
      Bool.false_eq_true, if_false, List.append_eq]
    rw [ih fuel rest (fun d hd => h d (by simp [hd]))]

theorem isPlainWord_spec {w : List Char} (h : isPlainWord w = true) :
    w ≠ [] ∧ ∀ c ∈ w, isLowerC c = true := by
  simp only [isPlainWord, Bool.and_eq_true, Bool.not_eq_true', List.isEmpty_eq_false,
    List.all_eq_true] at h
  exact ⟨h.1, h.2⟩

theorem tryKw_none_words (ak : Bool) (v t : List Char)
    (hv : ∀ c ∈ v, isLowerC c = true)
    (hva : v ≠ strL "accept") (hvo : v ≠ strL "or") (hvp : v ≠ strL "prompt")
    (ht : t = [] ∨ ∃ t', t = ' ' :: t') :
    tryKw ak (v ++ t) = none := by
  have hvs : ∀ c ∈ v, c ≠ ' ' := fun c hc => lower_ne (hv c hc) ' ' (by decide)
  have ha : startsL (strL "accept ") (v ++ t) = false := by
    have he : strL "accept " = strL "accept" ++ [' '] := by decide
    rw [he]
    exact startsL_kw_word_false (strL "accept") v t (by decide) hvs hva ht
  have ho : startsL (strL "or ") (v ++ t) = false := by
    have he : strL "or " = strL "or" ++ [' '] := by decide
    rw [he]
    exact startsL_kw_word_false (strL "or") v t (by decide) hvs hvo ht
  have hp : startsL (strL "prompt on ") (v ++ t) = false := by
    cases hst : startsL (strL "prompt on ") (v ++ t)
    · rfl
    · have h2 : startsL (strL "prompt ") (v ++ t) = true := by
        have he : strL "prompt on " = strL "prompt " ++ strL "on " := by decide
        rw [he] at hst
        exact startsL_mono _ _ _ hst
      have h3 : startsL (strL "prompt ") (v ++ t) = false := by
        have he : strL "prompt " = strL "prompt" ++ [' '] := by decide
        rw [he]
        exact startsL_kw_word_false (strL "prompt") v t (by decide) hvs hvp ht
      rw [h2] at h3
      exact absurd h3 (by simp)
  cases ak
  · simp [tryKw, hp, ho]
  · simp [tryKw, ha, ho]

theorem joinTail_shape (ws : List (List Char)) :
    joinTail ws = [] ∨ ∃ t', joinTail ws = ' ' :: t' := by
  cases ws
  · exact Or.inl rfl
  · exact Or.inr ⟨_, rfl⟩

theorem scanMatches_plain :
    ∀ (fuel : Nat) (ak : Bool) (w : List Char) (ws : List (List Char)) (b : List Char),
      (∀ c ∈ w, isLowerC c = true) →
      (∀ x ∈ ws, (∀ c ∈ x, isLowerC c = true) ∧
        x ≠ strL "accept" ∧ x ≠ strL "or" ∧ x ≠ strL "prompt") →
      scanMatches ak fuel b (w ++ joinTail ws) = [] := by
  intro fuel
  induction fuel with
  | zero => intro ak w ws b _ _; rfl
  | succ f ih =>
    intro ak w ws b hw hws
    rcases w with _ | ⟨c, w'⟩
    · rcases ws with _ | ⟨v, vs⟩
      · rfl
      · simp only [List.nil_append, joinTail]
        rw [joinSp_cons_eq]
        have htk : tryKw ak (v ++ joinTail vs) = none :=
          tryKw_none_words ak v (joinTail vs) (hws v (by simp)).1 (hws v (by simp)).2.1
            (hws v (by simp)).2.2.1 (hws v (by simp)).2.2.2 (joinTail_shape vs)
        have hdelim : isDelimC ' ' = true := by decide
        simp only [scanMatches, hdelim, if_true, htk]
        exact ih ak v vs (' ' :: b) (hws v (by simp)).1
          (fun x hx => hws x (List.mem_cons_of_mem v hx))
    · have hc := hw c (by simp)
      simp only [List.cons_append, scanMatches, lower_not_delim hc, Bool.false_eq_true,
        if_false]
      exact ih ak w' ws (c :: b) (fun d hd => hw d (by simp [hd])) hws

theorem primaryCapture_word_append :
    ∀ (w rest : List Char), (∀ c ∈ w, isLowerC c = true) →
      primaryCapture (w ++ rest) = w ++ primaryCapture rest := by
  intro w
  induction w with
  | nil => intro rest _; simp
  | cons c w' ih =>
    intro rest h
    have hc := h c (by simp)
    have h1 : (c = '[') = False := by simp [lower_ne hc '[' (by decide)]
    have h2 : startsL (strL " or ") (c :: (w' ++ rest)) = false := by
      have he : strL " or " = ' ' :: strL "or " := by decide
      rw [he]
      simp only [startsL]
      have : ((' ' : Char) = c) = False := by
        simp
        intro hcontra
        exact lower_ne hc ' ' (by decide) hcontra.symm
      simp [this]
    simp only [List.cons_append, primaryCapture, List.append_eq, h1, h2, decide_False,
      Bool.false_or, Bool.or_self, Bool.false_eq_true, if_false]
    rw [ih rest (fun d hd => h d (by simp [hd]))]

theorem primaryCapture_tail :
    ∀ ws : List (List Char),
      (∀ x ∈ ws, (∀ c ∈ x, isLowerC c = true) ∧ x ≠ strL "or") →
      primaryCapture (joinTail ws) = joinTail ws := by
  intro ws
  induction ws with
  | nil => intro _; rfl
  | cons v vs ih =>
    intro h
    simp only [joinTail]
    rw [joinSp_cons_eq]
    have h2 : startsL (strL " or ") (' ' :: (v ++ joinTail vs)) = false := by
      have he : strL " or " = ' ' :: strL "or " := by decide
      rw [he]
      simp only [startsL]
      have ho : startsL (strL "or ") (v ++ joinTail vs) = false := by
        have he2 : strL "or " = strL "or" ++ [' '] := by decide
        rw [he2]
        exact startsL_kw_word_false (strL "or") v (joinTail vs) (by decide)
          (fun c hc => lower_ne ((h v (by simp)).1 c hc) ' ' (by decide))
          (h v (by simp)).2 (joinTail_shape vs)
      simp [ho]
    have h1 : ((' ' : Char) = '[') = False := by decide
    simp only [primaryCapture, h1, h2, decide_False, Bool.false_or, Bool.false_eq_true,
      if_false]
    rw [primaryCapture_word_append v (joinTail vs) (h v (by simp)).1]
    rw [ih (fun x hx => h x (by simp [hx]))]

/-- C6 (amended): for an answer line that is just plain lowercase words
(no markup, no brackets or parentheses, none of the keywords
accept/or/prompt) and for every behavior of the external first-name
stripper, the acceptable set is the deduplicated nonempty-filtered pair
of the normalized whole line and the normalized stripped variant — so it
always contains the normalized whole line, with at most the stripped
variant besides — and the promptable set is empty.  The original
one-element form of the claim is refuted by
parse_plain_answerline_two_variants. -/
theorem parse_plain_answerline :
    ∀ (rfn : List Char → List Char) (ws : List (List Char)), ws ≠ [] →
      (∀ w ∈ ws, isPlainWord w = true) →
      strL "accept" ∉ ws → strL "or" ∉ ws → strL "prompt" ∉ ws →
      parseAcceptableAnswersWith rfn (joinSp ws) =
        getUnique (List.filter emptyStringFilter
          (List.map normalizeAnswer [joinSp ws, rfn (joinSp ws)])) ∧
      normalizeAnswer (joinSp ws) ∈ parseAcceptableAnswersWith rfn (joinSp ws) ∧
      parsePromptableAnswers (joinSp ws) = [] := by
  intro rfn ws hne hpl hka hko hkp
  have hplain : ∀ w ∈ ws, w ≠ [] ∧ ∀ c ∈ w, isLowerC c = true :=
    fun w hw => isPlainWord_spec (hpl w hw)
  have hchars : ∀ c ∈ joinSp ws, isLowerC c = true ∨ c = ' ' := by
    intro c hc
    rcases mem_joinSp ws c hc with rfl | ⟨w, hw, hcw⟩
    · exact Or.inr rfl
    · exact Or.inl ((hplain w hw).2 c hcw)
  have hno : ∀ d : Char, d.toNat < 97 ∨ 122 < d.toNat → d ≠ ' ' → ∀ c ∈ joinSp ws, c ≠ d := by
    intro d hd hdsp c hc
    rcases hchars c hc with h | rfl
    · exact lower_ne h d hd
    · exact fun he => hdsp he.symm
  have hamp : ∀ c ∈ joinSp ws, c ≠ '&' := hno '&' (by decide) (by decide)
  have hpar : ∀ c ∈ joinSp ws, c ≠ '(' := hno '(' (by decide) (by decide)
  have hpar2 : ∀ c ∈ joinSp ws, c ≠ ')' := hno ')' (by decide) (by decide)
  have hlt : ∀ c ∈ joinSp ws, c ≠ '<' := hno '<' (by decide) (by decide)
  have h1 : removeLtgt (joinSp ws).length (joinSp ws) = joinSp ws :=
    removeLtgt_id _ _ hamp
  have h2 : removeBadParens (joinSp ws).length (joinSp ws) = joinSp ws :=
    removeBadParens_id _ _ hpar
  have h3 : parenToBracket (joinSp ws) = joinSp ws := by
    apply map_id_of_mem
    intro c hc
    simp [hpar c hc, hpar2 c hc]
  have h4 : normalizeSpacing (joinSp ws) = joinSp ws := by
    unfold normalizeSpacing
    rw [wordsOf_joinSp ws (fun w hw =>
      ⟨(hplain w hw).1, fun c hc => lower_not_ws ((hplain w hw).2 c hc)⟩)]
  have hclean : cleanAnswerline (joinSp ws) = joinSp ws := by
    unfold cleanAnswerline
    rw [h1, h2, h3, h4]
  obtain ⟨w₀, ws₀, rfl⟩ : ∃ w₀ ws₀, ws = w₀ :: ws₀ := by
    rcases ws with _ | ⟨w₀, ws₀⟩
    · exact absurd rfl hne
    · exact ⟨w₀, ws₀, rfl⟩
  have hjoin : joinSp (w₀ :: ws₀) = w₀ ++ joinTail ws₀ := joinSp_cons_eq w₀ ws₀
  have hprim : primaryCapture (joinSp (w₀ :: ws₀)) = joinSp (w₀ :: ws₀) := by
    rw [hjoin, primaryCapture_word_append w₀ _ (hplain w₀ (by simp)).2,
      primaryCapture_tail ws₀ (fun x hx =>
        ⟨(hplain x (by simp [hx])).2, fun he => hko (by simp [← he, hx])⟩)]
  have hwsprops : ∀ x ∈ ws₀, (∀ c ∈ x, isLowerC c = true) ∧
      x ≠ strL "accept" ∧ x ≠ strL "or" ∧ x ≠ strL "prompt" := by
    intro x hx
    refine ⟨(hplain x (by simp [hx])).2, ?_, ?_, ?_⟩
    · exact fun he => hka (by simp [← he, hx])
    · exact fun he => hko (by simp [← he, hx])
    · exact fun he => hkp (by simp [← he, hx])
  have hscanT : scanMatchesTop true (joinSp (w₀ :: ws₀)) = [] := by
    unfold scanMatchesTop
    conv_lhs => rw [hjoin]
    exact scanMatches_plain _ true w₀ ws₀ [] (hplain w₀ (by simp)).2 hwsprops
  have hscanF : scanMatchesTop false (joinSp (w₀ :: ws₀)) = [] := by
    unfold scanMatchesTop
    conv_lhs => rw [hjoin]
    exact scanMatches_plain _ false w₀ ws₀ [] (hplain w₀ (by simp)).2 hwsprops
  have hbold : getTextBetweenTags (strL "strong") (joinSp (w₀ :: ws₀)).length
      (joinSp (w₀ :: ws₀)) = [] := getTextBetweenTags_nil _ _ _ hlt
  have hund : getTextBetweenTags (strL "u") (joinSp (w₀ :: ws₀)).length
      (joinSp (w₀ :: ws₀)) = [] := getTextBetweenTags_nil _ _ _ hlt
  have htagless : removeAnyTag (joinSp (w₀ :: ws₀)).length (joinSp (w₀ :: ws₀)) =
      joinSp (w₀ :: ws₀) := removeAnyTag_id _ _ hlt
  have hnorm : normalizeAnswer (joinSp (w₀ :: ws₀)) = joinSp (w₀ :: ws₀) := by
    apply normalizeAnswer_joinSp_fixed
    intro w hw
    refine ⟨(hplain w hw).1, fun c hc => ?_⟩
    have hl := (hplain w hw).2 c hc
    exact ⟨lower_alnum hl, lower_not_upper hl, lower_not_digit hl⟩
  have htne : joinSp (w₀ :: ws₀) ≠ [] := by
    rw [hjoin]
    rcases hw0 : w₀ with _ | ⟨c, w'⟩
    · exact absurd hw0 (hplain w₀ (by simp)).1
    · simp
  have hef : emptyStringFilter (joinSp (w₀ :: ws₀)) = true := by
    simp [emptyStringFilter, htne]
  refine ⟨?_, ?_, ?_⟩
  · simp only [parseAcceptableAnswersWith, hclean, htagless, hbold, hscanT, hprim,
      List.filter_nil, List.map_nil, combine, List.nil_append, List.map_cons,
      List.cons_append, List.append_nil, hnorm]
  · simp only [parseAcceptableAnswersWith, hclean, htagless, hbold, hscanT, hprim,
      List.filter_nil, List.map_nil, combine, List.nil_append, List.map_cons,
      List.cons_append, List.append_nil, hnorm, List.filter_cons, hef, getUnique]
    rw [getUniqueAux_mem]
    simp
  · simp only [parsePromptableAnswers, hclean, htagless, hund, hscanF,
      List.filter_nil, List.map_nil, combine, List.append_nil, List.nil_append]
    simp [getUnique, getUniqueAux]

/-- Witness for C6 at the plain answer line "george washington" and a
first-name detector recognizing "george". -/
theorem parse_plain_answerline_witness :
    parseAcceptableAnswersWith (stripName (strL "george"))
        (joinSp [strL "george", strL "washington"]) =
      getUnique (List.filter emptyStringFilter
        (List.map normalizeAnswer [joinSp [strL "george", strL "washington"],
          stripName (strL "george") (joinSp [strL "george", strL "washington"])])) ∧
      normalizeAnswer (joinSp [strL "george", strL "washington"]) ∈
        parseAcceptableAnswersWith (stripName (strL "george"))
          (joinSp [strL "george", strL "washington"]) ∧
      parsePromptableAnswers (joinSp [strL "george", strL "washington"]) = [] :=
  parse_plain_answerline (stripName (strL "george")) [strL "george", strL "washington"]
    (by decide) (by decide) (by decide) (by decide) (by decide)

/-- C6 counterexample to the claim as stated: under a first-name detector
that recognizes "george" (spec §4.2 step 9 keeps both the original and the
stripped variant), the plain answer line "george washington" parses to the
two-element acceptable set ["george washington", "washington"], not to the
one-element set holding its normalization. -/
theorem parse_plain_answerline_two_variants :
    parseAcceptableAnswersWith (stripName (strL "george")) (strL "george washington") =
      [strL "george washington", strL "washington"] ∧
    parseAcceptableAnswersWith (stripName (strL "george")) (strL "george washington") ≠
      [normalizeAnswer (strL "george washington")] := by
  decide

theorem scanMatches_nil (ak : Bool) (f : Nat) (b : List Char) :
    scanMatches ak f b [] = [] := by
  cases f <;> rfl

theorem scanMatches_adv (ak : Bool) (f : Nat) (b : List Char) (c : Char) (rest : List Char)
    (hd : isDelimC c = false) :
    scanMatches ak (f + 1) b (c :: rest) = scanMatches ak f (c :: b) rest := by
  simp [scanMatches, hd]

theorem scanMatches_noKw (ak : Bool) (f : Nat) (b : List Char) (c : Char) (rest : List Char)
    (hd : isDelimC c = true) (hk : tryKw ak rest = none) :
    scanMatches ak (f + 1) b (c :: rest) = scanMatches ak f (c :: b) rest := by
  simp [scanMatches, hd, hk]

theorem scanMatches_hit (ak : Bool) (f : Nat) (b : List Char) (c : Char) (rest kw : List Char)
    (hd : isDelimC c = true) (hk : tryKw ak rest = some kw) :
    scanMatches ak (f + 1) b (c :: rest) =
      { delim := c, kw := kw, capture := (findCapture (rest.drop kw.length)).1,
        before := b } ::
        scanMatches ak f
          ((findCapture (rest.drop kw.length)).1.reverse ++ (kw.reverse ++ c :: b))
          (findCapture (rest.drop kw.length)).2 := by
  simp [scanMatches, hd, hk]

theorem scanMatches_skip_word :
    ∀ (w : List Char) (ak : Bool) (fuel : Nat) (b rest : List Char),
      (∀ c ∈ w, isDelimC c = false) →
      scanMatches ak (w.length + fuel) b (w ++ rest) =
        scanMatches ak fuel (w.reverse ++ b) rest := by
  intro w
  induction w with
  | nil => intro ak fuel b rest _; simp
  | cons c w' ih =>
    intro ak fuel b rest h
    have hc : isDelimC c = false := h c (by simp)
    have hl : (c :: w').length + fuel = (w'.length + fuel) + 1 := by
      simp [List.length_cons]
      omega
    rw [hl, List.cons_append, scanMatches_adv ak (w'.length + fuel) b c (w' ++ rest) hc]
    rw [ih ak fuel (c :: b) rest (fun d hd => h d (by simp [hd]))]
    simp [List.append_assoc]

theorem findCapture_word :
    ∀ (w rest : List Char), (∀ c ∈ w, isLowerC c = true) →
      findCapture (w ++ rest) = (w ++ (findCapture rest).1, (findCapture rest).2) := by
  intro w
  induction w with
  | nil => intro rest _; simp
  | cons c w' ih =>
    intro rest h
    have hc := h c (by simp)
    have hsp : (c = ' ') = False := by simp [lower_ne hc ' ' (by decide)]
    have hla : lookaheadHolds (c :: (w' ++ rest)) = false := by
      simp [lookaheadHolds, lower_not_stop hc, hsp]
    simp only [List.cons_append, findCapture, List.append_eq, hla, Bool.false_eq_true,
      if_false]
    rw [ih rest (fun d hd => h d (by simp [hd]))]

theorem sliceFromLastDelim_skip :
    ∀ (u rest acc : List Char), (∀ c ∈ u, isLowerC c = true) →
      sliceFromLastDelim (u ++ rest) acc = sliceFromLastDelim rest (u.reverse ++ acc) := by
  intro u
  induction u with
  | nil => intro rest acc _; simp
  | cons c u' ih =>
    intro rest acc h
    have hc := h c (by simp)
    have h1 : (c = ';') = False := by simp [lower_ne hc ';' (by decide)]
    have h2 : (c = ',') = False := by simp [lower_ne hc ',' (by decide)]
    have h3 : (c = '[') = False := by simp [lower_ne hc '[' (by decide)]
    simp only [List.cons_append, sliceFromLastDelim, List.append_eq, h1, h2, h3,
      decide_False, Bool.or_self, Bool.false_eq_true, if_false]
    rw [ih rest (c :: acc) (fun d hd => h d (by simp [hd]))]
    simp [List.append_assoc]

theorem wordsOf_joinSp_sp :
    ∀ (ws : List (List Char)) (r : List Char),
      (∀ w ∈ ws, w ≠ [] ∧ ∀ c ∈ w, isWsC c = false) →
      wordsOf (joinSp ws ++ ' ' :: r) = ws ++ wordsOf r := by
  intro ws
  induction ws with
  | nil =>
    intro r _
    simp only [joinSp, List.nil_append]
    exact wordsOf_sp_cons ' ' r (by decide)
  | cons w rest ih =>
    intro r h
    rcases rest with _ | ⟨v, vs⟩
    · simp only [joinSp]
      rw [wordsOf_append_word w r (h w (by simp)).1 (h w (by simp)).2]
      simp
    · simp only [joinSp]
      have he : (w ++ ' ' :: joinSp (v :: vs)) ++ ' ' :: r =
          w ++ ' ' :: (joinSp (v :: vs) ++ ' ' :: r) := by simp
      rw [he, wordsOf_append_word w _ (h w (by simp)).1 (h w (by simp)).2]
      rw [ih r (fun x hx => h x (by simp [hx]))]
      simp

theorem normalizeAnswer_word_sp :
    ∀ w : List Char, w ≠ [] →
      (∀ c ∈ w, isAlphaNumC c = true ∧ isUpperC c = false ∧ isDigitC c = false) →
      normalizeAnswer (w ++ [' ']) = w := by
  intro w hne h
  have hchar : ∀ c ∈ w ++ [' '],
      c = ' ' ∨ (isAlphaNumC c = true ∧ isUpperC c = false ∧ isDigitC c = false) := by
    intro c hc
    rcases List.mem_append.mp hc with h1 | h1
    · exact Or.inr (h c h1)
    · simp only [List.mem_singleton] at h1
      exact Or.inl h1
  have hwsp : ∀ c ∈ w, c ≠ ' ' := fun c hc => ne_sp_of_alphaNum (h c hc).1
  have h1 : removeQuotes (nlpNormalizeLight (w ++ [' '])) = w ++ [' '] := by
    unfold nlpNormalizeLight removeQuotes
    apply List.filter_eq_self.mpr
    intro c hc
    rcases hchar c hc with rfl | ⟨ha, -, -⟩
    · decide
    · simp [isQuoteC_eq_false ha]
  have hsplit : splitSp (w ++ [' ']) = [w, []] := by
    have he : w ++ [' '] = w ++ ' ' :: [] := rfl
    rw [he, splitSp_append_word w [] hwsp]
    rfl
  have h2 : convertNumberToWords (w ++ [' ']) = w ++ [' '] := by
    apply convertNumberToWords_id
    rw [hsplit]
    intro x hx
    rcases List.mem_cons.mp hx with rfl | hx2
    · exact isNumericL_eq_false (fun c hc => (h c hc).2.2)
    · simp only [List.mem_singleton] at hx2
      subst hx2
      rfl
  have h3 : (w ++ [' ']).map toLowerC = w ++ [' '] := by
    apply map_id_of_mem
    intro c hc
    rcases hchar c hc with rfl | ⟨-, hu, -⟩
    · decide
    · exact toLowerC_eq_self hu
  have h4 : removeNonAlphanumeric (w ++ [' ']) = w ++ [' '] := by
    unfold removeNonAlphanumeric
    apply List.filter_eq_self.mpr
    intro c hc
    rcases hchar c hc with rfl | ⟨ha, -, -⟩
    · decide
    · simp [ha]
  have h5 : normalizeSpacing (w ++ [' ']) = w := by
    unfold normalizeSpacing
    have he : w ++ [' '] = w ++ ' ' :: [] := rfl
    rw [he, wordsOf_append_word w [] hne
      (fun c hc => isWsC_eq_false_of_alphaNum (h c hc).1)]
    rfl
  simp only [normalizeAnswer, h1, h2, h3, h4, h5]

theorem cleanAnswerline_accept_or :
    ∀ X Y Z W : List Char, X ≠ [] → Y ≠ [] →
      (∀ c ∈ X, isLowerC c = true) → (∀ c ∈ Y, isLowerC c = true) →
      (∀ c ∈ Z, isLowerC c = true) → (∀ c ∈ W, isLowerC c = true) →
      cleanAnswerline (X ++ strL " [accept " ++ Y ++ strL " or " ++ Z ++
          strL "] (do not accept " ++ W ++ strL ")") =
        X ++ (' ' :: '[' :: 'a' :: 'c' :: 'c' :: 'e' :: 'p' :: 't' :: ' ' ::
          (Y ++ (' ' :: 'o' :: 'r' :: ' ' :: (Z ++ [']'])))) := by
  intro X Y Z W hXne hYne hXl hYl hZl hWl
  have hs1 : strL " [accept " = [' ', '[', 'a', 'c', 'c', 'e', 'p', 't', ' '] := by decide
  have hs2 : strL " or " = [' ', 'o', 'r', ' '] := by decide
  have hs3 : strL "] (do not accept " =
      [']', ' ', '(', 'd', 'o', ' ', 'n', 'o', 't', ' ', 'a', 'c', 'c', 'e', 'p', 't', ' '] := by
    decide
  have hs4 : strL ")" = [')'] := by decide
  have hline : X ++ strL " [accept " ++ Y ++ strL " or " ++ Z ++
      strL "] (do not accept " ++ W ++ strL ")" =
      (X ++ (' ' :: '[' :: 'a' :: 'c' :: 'c' :: 'e' :: 'p' :: 't' :: ' ' ::
        (Y ++ (' ' :: 'o' :: 'r' :: ' ' :: (Z ++ [']', ' ']))))) ++
      ('(' :: (('d' :: 'o' :: ' ' :: 'n' :: 'o' :: 't' :: ' ' ::
        'a' :: 'c' :: 'c' :: 'e' :: 'p' :: 't' :: ' ' :: W) ++ [')'])) := by
    rw [hs1, hs2, hs3, hs4]
    simp [List.append_assoc]
  unfold cleanAnswerline
  rw [hline]
  have hamp : ∀ c ∈ (X ++ (' ' :: '[' :: 'a' :: 'c' :: 'c' :: 'e' :: 'p' :: 't' :: ' ' ::
      (Y ++ (' ' :: 'o' :: 'r' :: ' ' :: (Z ++ [']', ' ']))))) ++
      ('(' :: (('d' :: 'o' :: ' ' :: 'n' :: 'o' :: 't' :: ' ' ::
        'a' :: 'c' :: 'c' :: 'e' :: 'p' :: 't' :: ' ' :: W) ++ [')'])), c ≠ '&' := by
    simp only [List.forall_mem_append, List.forall_mem_cons]
    repeat' apply And.intro
    all_goals first
      | decide
      | exact fun c hc => lower_ne (hXl c hc) '&' (by decide)
      | exact fun c hc => lower_ne (hYl c hc) '&' (by decide)
      | exact fun c hc => lower_ne (hZl c hc) '&' (by decide)
      | exact fun c hc => lower_ne (hWl c hc) '&' (by decide)
  rw [removeLtgt_id _ _ hamp]
  have hApar : ∀ c ∈ X ++ (' ' :: '[' :: 'a' :: 'c' :: 'c' :: 'e' :: 'p' :: 't' :: ' ' ::
      (Y ++ (' ' :: 'o' :: 'r' :: ' ' :: (Z ++ [']', ' '])))), c ≠ '(' := by
    simp only [List.forall_mem_append, List.forall_mem_cons]
    repeat' apply And.intro
    all_goals first
      | decide
      | exact fun c hc => lower_ne (hXl c hc) '(' (by decide)
      | exact fun c hc => lower_ne (hYl c hc) '(' (by decide)
      | exact fun c hc => lower_ne (hZl c hc) '(' (by decide)
  have hlen : ((X ++ (' ' :: '[' :: 'a' :: 'c' :: 'c' :: 'e' :: 'p' :: 't' :: ' ' ::
      (Y ++ (' ' :: 'o' :: 'r' :: ' ' :: (Z ++ [']', ' ']))))) ++
      ('(' :: (('d' :: 'o' :: ' ' :: 'n' :: 'o' :: 't' :: ' ' ::
        'a' :: 'c' :: 'c' :: 'e' :: 'p' :: 't' :: ' ' :: W) ++ [')']))).length =
      (X ++ (' ' :: '[' :: 'a' :: 'c' :: 'c' :: 'e' :: 'p' :: 't' :: ' ' ::
        (Y ++ (' ' :: 'o' :: 'r' :: ' ' :: (Z ++ [']', ' ']))))).length +
      ('(' :: (('d' :: 'o' :: ' ' :: 'n' :: 'o' :: 't' :: ' ' ::
        'a' :: 'c' :: 'c' :: 'e' :: 'p' :: 't' :: ' ' :: W) ++ [')'])).length := by
    simp
    omega
  rw [hlen, removeBadParens_append _ _ _ hApar]
  have hBnp : ∀ c ∈ 'd' :: 'o' :: ' ' :: 'n' :: 'o' :: 't' :: ' ' ::
      'a' :: 'c' :: 'c' :: 'e' :: 'p' :: 't' :: ' ' :: W, c ≠ ')' := by
    simp only [List.forall_mem_cons]
    repeat' apply And.intro
    all_goals first
      | decide
      | exact fun c hc => lower_ne (hWl c hc) ')' (by decide)
  have hlen2 : ('(' :: (('d' :: 'o' :: ' ' :: 'n' :: 'o' :: 't' :: ' ' ::
      'a' :: 'c' :: 'c' :: 'e' :: 'p' :: 't' :: ' ' :: W) ++ [')'])).length =
      (('d' :: 'o' :: ' ' :: 'n' :: 'o' :: 't' :: ' ' ::
        'a' :: 'c' :: 'c' :: 'e' :: 'p' :: 't' :: ' ' :: W).length + 1) + 1 := by
    simp
  rw [hlen2]
  have hb1 : startsL (strL "accept") ('d' :: 'o' :: ' ' :: 'n' :: 'o' :: 't' :: ' ' ::
      'a' :: 'c' :: 'c' :: 'e' :: 'p' :: 't' :: ' ' :: (W ++ [')'])) = false := by
    rw [show strL "accept" = ['a', 'c', 'c', 'e', 'p', 't'] from by decide]
    simp [startsL]
  have hb2 : startsL (strL "or") ('d' :: 'o' :: ' ' :: 'n' :: 'o' :: 't' :: ' ' ::
      'a' :: 'c' :: 'c' :: 'e' :: 'p' :: 't' :: ' ' :: (W ++ [')'])) = false := by
    rw [show strL "or" = ['o', 'r'] from by decide]
    simp [startsL]
  have hb3 : startsL (strL "prompt") ('d' :: 'o' :: ' ' :: 'n' :: 'o' :: 't' :: ' ' ::
      'a' :: 'c' :: 'c' :: 'e' :: 'p' :: 't' :: ' ' :: (W ++ [')'])) = false := by
    rw [show strL "prompt" = ['p', 'r', 'o', 'm', 'p', 't'] from by decide]
    simp [startsL]
  have hsplit : splitAfterChar ')' ('d' :: 'o' :: ' ' :: 'n' :: 'o' :: 't' :: ' ' ::
      'a' :: 'c' :: 'c' :: 'e' :: 'p' :: 't' :: ' ' :: (W ++ [')'])) = some [] := by
    have := splitAfterChar_append _ [] hBnp
    simpa using this
  have hstep : removeBadParens ((('d' :: 'o' :: ' ' :: 'n' :: 'o' :: 't' :: ' ' ::
      'a' :: 'c' :: 'c' :: 'e' :: 'p' :: 't' :: ' ' :: W).length + 1) + 1)
      ('(' :: (('d' :: 'o' :: ' ' :: 'n' :: 'o' :: 't' :: ' ' ::
        'a' :: 'c' :: 'c' :: 'e' :: 'p' :: 't' :: ' ' :: W) ++ [')'])) = [] := by
    simp [removeBadParens, hb1, hb2, hb3, hsplit, removeBadParens_nil]
  rw [hstep, List.append_nil]
  have hpb : parenToBracket (X ++ (' ' :: '[' :: 'a' :: 'c' :: 'c' :: 'e' :: 'p' :: 't' :: ' ' ::
      (Y ++ (' ' :: 'o' :: 'r' :: ' ' :: (Z ++ [']', ' ']))))) =
      X ++ (' ' :: '[' :: 'a' :: 'c' :: 'c' :: 'e' :: 'p' :: 't' :: ' ' ::
      (Y ++ (' ' :: 'o' :: 'r' :: ' ' :: (Z ++ [']', ' '])))) := by
    unfold parenToBracket
    apply map_id_of_mem
    simp only [List.forall_mem_append, List.forall_mem_cons]
    repeat' apply And.intro
    all_goals first
      | decide
      | exact fun c hc => by
          simp [lower_ne (hXl c hc) '(' (by decide), lower_ne (hXl c hc) ')' (by decide)]
      | exact fun c hc => by
          simp [lower_ne (hYl c hc) '(' (by decide), lower_ne (hYl c hc) ')' (by decide)]
      | exact fun c hc => by
          simp [lower_ne (hZl c hc) '(' (by decide), lower_ne (hZl c hc) ')' (by decide)]
  rw [hpb]
  have hwords : ∀ w ∈ [X, ['[', 'a', 'c', 'c', 'e', 'p', 't'], Y, ['o', 'r'], Z ++ [']']],
      w ≠ [] ∧ ∀ c ∈ w, isWsC c = false := by
    intro w hw
    simp only [List.mem_cons, List.not_mem_nil, or_false] at hw
    rcases hw with rfl | rfl | rfl | rfl | rfl
    · exact ⟨hXne, fun c hc => lower_not_ws (hXl c hc)⟩
    · exact ⟨by simp, by decide⟩
    · exact ⟨hYne, fun c hc => lower_not_ws (hYl c hc)⟩
    · exact ⟨by simp, by decide⟩
    · refine ⟨by simp, fun c hc => ?_⟩
      rcases List.mem_append.mp hc with h | h
      · exact lower_not_ws (hZl c h)
      · simp only [List.mem_singleton] at h
        subst h
        decide
  have hA2 : X ++ (' ' :: '[' :: 'a' :: 'c' :: 'c' :: 'e' :: 'p' :: 't' :: ' ' ::
      (Y ++ (' ' :: 'o' :: 'r' :: ' ' :: (Z ++ [']', ' '])))) =
      joinSp [X, ['[', 'a', 'c', 'c', 'e', 'p', 't'], Y, ['o', 'r'], Z ++ [']']] ++ ' ' :: [] := by
    simp [joinSp, List.append_assoc]
  rw [hA2]
  unfold normalizeSpacing
  rw [wordsOf_joinSp_sp _ [] hwords]
  simp [joinSp, List.append_assoc]

theorem scanMatchesTop_accept_or :
    ∀ X Y Z : List Char,
      (∀ c ∈ X, isLowerC c = true) → (∀ c ∈ Y, isLowerC c = true) →
      (∀ c ∈ Z, isLowerC c = true) →
      scanMatchesTop true (X ++ (' ' :: '[' :: 'a' :: 'c' :: 'c' :: 'e' :: 'p' :: 't' :: ' ' ::
          (Y ++ (' ' :: 'o' :: 'r' :: ' ' :: (Z ++ [']']))))) =
        [{ delim := '[', kw := strL "accept ", capture := Y, before := ' ' :: X.reverse },
         { delim := ' ', kw := strL "or ", capture := Z,
           before := Y.reverse ++ ((strL "accept ").reverse ++ '[' :: ' ' :: X.reverse) }] := by
  intro X Y Z hXl hYl hZl
  have hA7 : strL "accept " = ['a', 'c', 'c', 'e', 'p', 't', ' '] := by decide
  have hO3 : strL "or " = ['o', 'r', ' '] := by decide
  have htk0 : tryKw true ('[' :: 'a' :: 'c' :: 'c' :: 'e' :: 'p' :: 't' :: ' ' ::
      (Y ++ (' ' :: 'o' :: 'r' :: ' ' :: (Z ++ [']'])))) = none := by
    simp [tryKw, hA7, hO3, startsL]
  have htk1 : tryKw true ('a' :: 'c' :: 'c' :: 'e' :: 'p' :: 't' :: ' ' ::
      (Y ++ (' ' :: 'o' :: 'r' :: ' ' :: (Z ++ [']'])))) = some (strL "accept ") := by
    simp [tryKw, hA7, startsL]
  have hk1 : strL "do not" ++ [' '] = ['d', 'o', ' ', 'n', 'o', 't', ' '] := by decide
  have hk2 : strL "prompt" ++ [' '] = ['p', 'r', 'o', 'm', 'p', 't', ' '] := by decide
  have hk3 : strL "accept" ++ [' '] = ['a', 'c', 'c', 'e', 'p', 't', ' '] := by decide
  have hk4 : strL "or" ++ [' '] = ['o', 'r', ' '] := by decide
  have hk5 : strL "until" ++ [' '] = ['u', 'n', 't', 'i', 'l', ' '] := by decide
  have hk6 : strL "before" ++ [' '] = ['b', 'e', 'f', 'o', 'r', 'e', ' '] := by decide
  have hk7 : strL "after" ++ [' '] = ['a', 'f', 't', 'e', 'r', ' '] := by decide
  have hla1 : lookaheadHolds (' ' :: 'o' :: 'r' :: ' ' :: (Z ++ [']'])) = true := by
    simp [lookaheadHolds, lookaheadKws, hk1, hk2, hk3, hk4, hk5, hk6, hk7, startsL]
  have hfc1 : findCapture (Y ++ (' ' :: 'o' :: 'r' :: ' ' :: (Z ++ [']']))) =
      (Y, ' ' :: 'o' :: 'r' :: ' ' :: (Z ++ [']'])) := by
    rw [findCapture_word Y _ hYl]
    simp [findCapture, hla1]
  have hfc2 : findCapture (Z ++ [']']) = (Z, [']']) := by
    rw [findCapture_word Z _ hZl]
    simp [findCapture, lookaheadHolds, isStopC]
  have htk2 : tryKw true ('o' :: 'r' :: ' ' :: (Z ++ [']'])) = some (strL "or ") := by
    simp [tryKw, hA7, hO3, startsL]
  have hd1 : ('a' :: 'c' :: 'c' :: 'e' :: 'p' :: 't' :: ' ' ::
      (Y ++ (' ' :: 'o' :: 'r' :: ' ' :: (Z ++ [']'])))).drop (strL "accept ").length =
      Y ++ (' ' :: 'o' :: 'r' :: ' ' :: (Z ++ [']'])) := by
    rw [show (strL "accept ").length = 7 from by decide]
    rfl
  have hd2 : ('o' :: 'r' :: ' ' :: (Z ++ [']'])).drop (strL "or ").length = Z ++ [']'] := by
    rw [show (strL "or ").length = 3 from by decide]
    rfl
  unfold scanMatchesTop
  have hflen : (X ++ (' ' :: '[' :: 'a' :: 'c' :: 'c' :: 'e' :: 'p' :: 't' :: ' ' ::
      (Y ++ (' ' :: 'o' :: 'r' :: ' ' :: (Z ++ [']']))))).length =
      X.length + (Y.length + Z.length + 10 + 1 + 1 + 1 + 1) := by
    simp
    omega
  rw [hflen]
  rw [scanMatches_skip_word X true _ [] _ (fun c hc => lower_not_delim (hXl c hc))]
  rw [scanMatches_noKw true _ _ ' ' _ (by decide) htk0]
  rw [scanMatches_hit true _ _ '[' _ _ (by decide) htk1]
  rw [hd1, hfc1]
  dsimp only
  rw [scanMatches_hit true _ _ ' ' _ _ (by decide) htk2]
  rw [hd2, hfc2]
  dsimp only
  rw [scanMatches_adv true _ _ ']' [] (by decide)]
  rw [scanMatches_nil]
  simp [hA7, hO3, List.append_assoc]

theorem filterNegativeAnswers_accept_kw (X Y : List Char) :
    filterNegativeAnswers { delim := '[', kw := strL "accept ", capture := Y, before := ' ' :: X.reverse } AnswerType.accept = true := by
  have hhead : answerHeadOf (strL "accept ") = strL "accept" := by decide
  have hr1 : (strL "do not").reverse = ['t', 'o', 'n', ' ', 'o', 'd'] := by decide
  have hr2 : (strL "do not prompt on or").reverse =
      ['r', 'o', ' ', 'n', 'o', ' ', 't', 'p', 'm', 'o', 'r', 'p', ' ',
        't', 'o', 'n', ' ', 'o', 'd'] := by decide
  have hr3 : (strL "do not prompt or").reverse =
      ['r', 'o', ' ', 't', 'p', 'm', 'o', 'r', 'p', ' ', 't', 'o', 'n', ' ', 'o', 'd'] := by
    decide
  simp [filterNegativeAnswers, hhead, endsBefore, hr1, hr2, hr3, startsL]

theorem filterNegativeAnswers_or_kw (X Y Z : List Char)
    (hYl : ∀ c ∈ Y, isLowerC c = true)
    (hYp : hasSubL (strL "prompt") Y = false) :
    filterNegativeAnswers { delim := ' ', kw := strL "or ", capture := Z, before := Y.reverse ++ ((strL "accept ").reverse ++ '[' :: ' ' :: X.reverse) } AnswerType.accept = true := by
  have hhead : answerHeadOf (strL "or ") = strL "or" := by decide
  have hne1 : ¬(strL "or" = strL "accept") := by decide
  have hneA : ¬(AnswerType.accept = AnswerType.prompt) := by decide
  have hys : ∀ c ∈ Y, c ≠ ' ' := fun c hc => lower_ne (hYl c hc) ' ' (by decide)
  have hslice : sliceFromLastDelim
      (Y.reverse ++ ((strL "accept ").reverse ++ '[' :: ' ' :: X.reverse)) [] =
      '[' :: 'a' :: 'c' :: 'c' :: 'e' :: 'p' :: 't' :: ' ' :: Y := by
    rw [sliceFromLastDelim_skip Y.reverse _ [] (fun c hc => hYl c (List.mem_reverse.mp hc))]
    rw [show (strL "accept ").reverse = [' ', 't', 'p', 'e', 'c', 'c', 'a'] from by decide]
    simp [sliceFromLastDelim]
  have hsub1 : hasSubL (strL "do not accept")
      ('[' :: 'a' :: 'c' :: 'c' :: 'e' :: 'p' :: 't' :: ' ' :: Y) = false := by
    have ht : hasSubL (strL "do not accept") Y = false :=
      hasSubL_space_free _ Y (by decide) hys
    rw [show strL "do not accept" =
      ['d', 'o', ' ', 'n', 'o', 't', ' ', 'a', 'c', 'c', 'e', 'p', 't'] from by decide] at ht ⊢
    simp [hasSubL, startsL, ht]
  have hsub2 : hasSubL (strL "prompt on")
      ('[' :: 'a' :: 'c' :: 'c' :: 'e' :: 'p' :: 't' :: ' ' :: Y) = false := by
    have ht : hasSubL (strL "prompt on") Y = false :=
      hasSubL_space_free _ Y (by decide) hys
    rw [show strL "prompt on" =
      ['p', 'r', 'o', 'm', 'p', 't', ' ', 'o', 'n'] from by decide] at ht ⊢
    simp [hasSubL, startsL, ht]
  have hsub3 : hasSubL (strL "prompt")
      ('[' :: 'a' :: 'c' :: 'c' :: 'e' :: 'p' :: 't' :: ' ' :: Y) = false := by
    have ht := hYp
    rw [show strL "prompt" = ['p', 'r', 'o', 'm', 'p', 't'] from by decide] at ht ⊢
    simp [hasSubL, startsL, ht]
  simp [filterNegativeAnswers, hhead, hne1, hneA, prevStringOf, hslice, hsub1, hsub2, hsub3]

theorem primaryCapture_accept_or (X Y Z : List Char)
    (hXl : ∀ c ∈ X, isLowerC c = true) :
    primaryCapture (X ++ (' ' :: '[' :: 'a' :: 'c' :: 'c' :: 'e' :: 'p' :: 't' :: ' ' ::
      (Y ++ (' ' :: 'o' :: 'r' :: ' ' :: (Z ++ [']']))))) = X ++ [' '] := by
  rw [primaryCapture_word_append X _ hXl]
  have hsor : strL " or " = [' ', 'o', 'r', ' '] := by decide
  simp [primaryCapture, hsor, startsL]

/-- C3 (amended): for answer lines of the form
"X [accept Y or Z] (do not accept W)" with plain lowercase words X, Y, Z, W,
where Y does not contain the substring "prompt" and W is distinct from X, Y
and Z, parseAcceptableAnswers returns a set containing the normalized forms
of X, Y and Z and not containing the normalized form of W.  The
Y-contains-"prompt" restriction is forced by the code:
parseAcceptableAnswers_or_match_dropped refutes the unrestricted claim. -/
theorem parseAcceptableAnswers_accept_or_not :
    ∀ X Y Z W : List Char,
      isPlainWord X = true → isPlainWord Y = true → isPlainWord Z = true →
      isPlainWord W = true →
      hasSubL (strL "prompt") Y = false →
      W ≠ X → W ≠ Y → W ≠ Z →
      (normalizeAnswer X ∈ parseAcceptableAnswers (X ++ strL " [accept " ++ Y ++
          strL " or " ++ Z ++ strL "] (do not accept " ++ W ++ strL ")") ∧
        normalizeAnswer Y ∈ parseAcceptableAnswers (X ++ strL " [accept " ++ Y ++
          strL " or " ++ Z ++ strL "] (do not accept " ++ W ++ strL ")") ∧
        normalizeAnswer Z ∈ parseAcceptableAnswers (X ++ strL " [accept " ++ Y ++
          strL " or " ++ Z ++ strL "] (do not accept " ++ W ++ strL ")") ∧
        normalizeAnswer W ∉ parseAcceptableAnswers (X ++ strL " [accept " ++ Y ++
          strL " or " ++ Z ++ strL "] (do not accept " ++ W ++ strL ")")) := by
  intro X Y Z W hX hY hZ hW hYp hWX hWY hWZ
  obtain ⟨hXne, hXl⟩ := isPlainWord_spec hX
  obtain ⟨hYne, hYl⟩ := isPlainWord_spec hY
  obtain ⟨hZne, hZl⟩ := isPlainWord_spec hZ
  obtain ⟨hWne, hWl⟩ := isPlainWord_spec hW
  have hclean := cleanAnswerline_accept_or X Y Z W hXne hYne hXl hYl hZl hWl
  have hTlt : ∀ c ∈ X ++ (' ' :: '[' :: 'a' :: 'c' :: 'c' :: 'e' :: 'p' :: 't' :: ' ' ::
      (Y ++ (' ' :: 'o' :: 'r' :: ' ' :: (Z ++ [']'])))), c ≠ '<' := by
    simp only [List.forall_mem_append, List.forall_mem_cons]
    repeat' apply And.intro
    all_goals first
      | decide
      | exact fun c hc => lower_ne (hXl c hc) '<' (by decide)
      | exact fun c hc => lower_ne (hYl c hc) '<' (by decide)
      | exact fun c hc => lower_ne (hZl c hc) '<' (by decide)
  have htagless : removeAnyTag (X ++ (' ' :: '[' :: 'a' :: 'c' :: 'c' :: 'e' :: 'p' :: 't' ::
      ' ' :: (Y ++ (' ' :: 'o' :: 'r' :: ' ' :: (Z ++ [']']))))).length
      (X ++ (' ' :: '[' :: 'a' :: 'c' :: 'c' :: 'e' :: 'p' :: 't' :: ' ' ::
      (Y ++ (' ' :: 'o' :: 'r' :: ' ' :: (Z ++ [']']))))) =
      X ++ (' ' :: '[' :: 'a' :: 'c' :: 'c' :: 'e' :: 'p' :: 't' :: ' ' ::
      (Y ++ (' ' :: 'o' :: 'r' :: ' ' :: (Z ++ [']'])))) :=
    removeAnyTag_id _ _ hTlt
  have hbold : getTextBetweenTags (strL "strong")
      (X ++ (' ' :: '[' :: 'a' :: 'c' :: 'c' :: 'e' :: 'p' :: 't' :: ' ' ::
      (Y ++ (' ' :: 'o' :: 'r' :: ' ' :: (Z ++ [']']))))).length
      (X ++ (' ' :: '[' :: 'a' :: 'c' :: 'c' :: 'e' :: 'p' :: 't' :: ' ' ::
      (Y ++ (' ' :: 'o' :: 'r' :: ' ' :: (Z ++ [']']))))) = [] :=
    getTextBetweenTags_nil _ _ _ hTlt
  have hscanT := scanMatchesTop_accept_or X Y Z hXl hYl hZl
  have hprim := primaryCapture_accept_or X Y Z hXl
  have hf1 := filterNegativeAnswers_accept_kw X Y
  have hf2 := filterNegativeAnswers_or_kw X Y Z hYl hYp
  have hgoodX : ∀ c ∈ X, isAlphaNumC c = true ∧ isUpperC c = false ∧ isDigitC c = false :=
    fun c hc => ⟨lower_alnum (hXl c hc), lower_not_upper (hXl c hc), lower_not_digit (hXl c hc)⟩
  have hgoodY : ∀ c ∈ Y, isAlphaNumC c = true ∧ isUpperC c = false ∧ isDigitC c = false :=
    fun c hc => ⟨lower_alnum (hYl c hc), lower_not_upper (hYl c hc), lower_not_digit (hYl c hc)⟩
  have hgoodZ : ∀ c ∈ Z, isAlphaNumC c = true ∧ isUpperC c = false ∧ isDigitC c = false :=
    fun c hc => ⟨lower_alnum (hZl c hc), lower_not_upper (hZl c hc), lower_not_digit (hZl c hc)⟩
  have hgoodW : ∀ c ∈ W, isAlphaNumC c = true ∧ isUpperC c = false ∧ isDigitC c = false :=
    fun c hc => ⟨lower_alnum (hWl c hc), lower_not_upper (hWl c hc), lower_not_digit (hWl c hc)⟩
  have hnXsp : normalizeAnswer (X ++ [' ']) = X := normalizeAnswer_word_sp X hXne hgoodX
  have hnX : normalizeAnswer X = X := by
    have h := normalizeAnswer_joinSp_fixed [X] (by
      intro w hw
      simp only [List.mem_singleton] at hw
      subst hw
      exact ⟨hXne, hgoodX⟩)
    simpa [joinSp] using h
  have hnY : normalizeAnswer Y = Y := by
    have h := normalizeAnswer_joinSp_fixed [Y] (by
      intro w hw
      simp only [List.mem_singleton] at hw
      subst hw
      exact ⟨hYne, hgoodY⟩)
    simpa [joinSp] using h
  have hnZ : normalizeAnswer Z = Z := by
    have h := normalizeAnswer_joinSp_fixed [Z] (by
      intro w hw
      simp only [List.mem_singleton] at hw
      subst hw
      exact ⟨hZne, hgoodZ⟩)
    simpa [joinSp] using h
  have hnW : normalizeAnswer W = W := by
    have h := normalizeAnswer_joinSp_fixed [W] (by
      intro w hw
      simp only [List.mem_singleton] at hw
      subst hw
      exact ⟨hWne, hgoodW⟩)
    simpa [joinSp] using h
  have hefX : emptyStringFilter X = true := by simp [emptyStringFilter, hXne]
  have hefY : emptyStringFilter Y = true := by simp [emptyStringFilter, hYne]
  have hefZ : emptyStringFilter Z = true := by simp [emptyStringFilter, hZne]
  have hres : parseAcceptableAnswers (X ++ strL " [accept " ++ Y ++ strL " or " ++ Z ++
      strL "] (do not accept " ++ W ++ strL ")") = getUnique [X, Y, Z, X, Y, Z] := by
    simp only [parseAcceptableAnswers, parseAcceptableAnswersWith, hclean, htagless,
      hbold, hscanT, hprim,
      List.filter_cons, List.filter_nil, hf1, hf2, if_true, List.map_cons, List.map_nil,
      combine, List.nil_append, removeFirstNames, List.cons_append, List.append_nil,
      hnXsp, hnY, hnZ, hefX, hefY, hefZ, eq_self_iff_true]
  refine ⟨?_, ?_, ?_, ?_⟩
  · rw [hres, hnX, getUnique, getUniqueAux_mem]
    simp
  · rw [hres, hnY, getUnique, getUniqueAux_mem]
    simp
  · rw [hres, hnZ, getUnique, getUniqueAux_mem]
    simp
  · rw [hres, hnW, getUnique]
    intro hmem
    rw [getUniqueAux_mem] at hmem
    have hm := hmem.1
    simp only [List.mem_cons, List.not_mem_nil, or_false] at hm
    rcases hm with h | h | h | h | h | h
    · exact hWX h
    · exact hWY h
    · exact hWZ h
    · exact hWX h
    · exact hWY h
    · exact hWZ h

/-- Witness for C3 at the concrete answer line
"paris [accept lutetia or lutece] (do not accept france)". -/
theorem parseAcceptableAnswers_accept_or_not_witness :
    normalizeAnswer (strL "paris") ∈ parseAcceptableAnswers (strL "paris" ++
        strL " [accept " ++ strL "lutetia" ++ strL " or " ++ strL "lutece" ++
        strL "] (do not accept " ++ strL "france" ++ strL ")") ∧
      normalizeAnswer (strL "lutetia") ∈ parseAcceptableAnswers (strL "paris" ++
        strL " [accept " ++ strL "lutetia" ++ strL " or " ++ strL "lutece" ++
        strL "] (do not accept " ++ strL "france" ++ strL ")") ∧
      normalizeAnswer (strL "lutece") ∈ parseAcceptableAnswers (strL "paris" ++
        strL " [accept " ++ strL "lutetia" ++ strL " or " ++ strL "lutece" ++
        strL "] (do not accept " ++ strL "france" ++ strL ")") ∧
      normalizeAnswer (strL "france") ∉ parseAcceptableAnswers (strL "paris" ++
        strL " [accept " ++ strL "lutetia" ++ strL " or " ++ strL "lutece" ++
        strL "] (do not accept " ++ strL "france" ++ strL ")") :=
  parseAcceptableAnswers_accept_or_not (strL "paris") (strL "lutetia") (strL "lutece")
    (strL "france") (by decide) (by decide) (by decide) (by decide) (by decide)
    (by decide) (by decide) (by decide)

/-- C3 counterexample to the claim as stated: when Y itself contains
"prompt" — here Y = "promptly" in "x [accept promptly or z] (do not accept
w)" — the bare-or match capturing Z is discarded by the negation filter,
because the text since the last delimiter, "[accept promptly", contains
"prompt"; the acceptable set is therefore ["x", "promptly"] and omits the
normalized Z. -/
theorem parseAcceptableAnswers_or_match_dropped :
    parseAcceptableAnswers (strL "x" ++ strL " [accept " ++ strL "promptly" ++
        strL " or " ++ strL "z" ++ strL "] (do not accept " ++ strL "w" ++ strL ")") =
      [strL "x", strL "promptly"] ∧
    normalizeAnswer (strL "z") ∉ parseAcceptableAnswers (strL "x" ++ strL " [accept " ++
      strL "promptly" ++ strL " or " ++ strL "z" ++ strL "] (do not accept " ++
      strL "w" ++ strL ")") := by
  decide
